import Mathlib

/-!
Verification of the spatial index distributor of the CAT repository
(`CAT/attachment/distribution.py`): `distribute_idx`, `uniform_idx` and their
helper generators `_min_or_max`, `_min_and_max`, `_random_arg_func`,
`_parse_cluster_size`, `_parse_randomness`.

Modelling conventions
---------------------
* float64 values are modelled by exact rationals.  Rounding error and
  overflow of finite arithmetic are ignored; the special values produced and
  consumed by the algorithm (`nan` from the diagonal mask / selection
  sentinel, `±inf` from division by zero in the cluster branch) are modelled
  explicitly, with IEEE propagation rules (`nan + x = nan`,
  `a / 0 = ±inf` for `a ≠ 0`, `0 / 0 = nan`).
* Accumulator arrays (`dist_1d_sqr`, `dist_cluster`) only ever hold finite
  values or `nan` (infinities arise only in the transient score vector of
  the cluster branch), so they are modelled by `FVal` (finite-or-nan) while
  score vectors are modelled by `SVal` (adding `±inf`).
* `numpy.nanargmin` / `numpy.nanargmax` raise `ValueError` on an all-NaN
  slice and otherwise replace `nan` by `+inf` / `-inf` and take the first
  occurrence of the extremum; `none` models the raise.
* Python generators are modelled by the list of values yielded before
  exhaustion or before an exception, paired with `Option PyErr`
  (`none` = ran to completion, `some e` = raised `e` after those yields).
* `numpy.random` draws are modelled by an oracle (`RngOracle`): any actual
  sequence of draws corresponds to some oracle, and every oracle corresponds
  to a legal sequence of draws.
-/

namespace CATDist

/-- Finite-or-NaN float64 value: the contents of the accumulator arrays. -/
inductive FVal where
  | nan : FVal
  | val : ℚ → FVal
  deriving DecidableEq, Repr

/-- Score value: float64 value as it appears in a transient score vector,
where division by zero can additionally produce `±inf`. -/
inductive SVal where
  | nan : SVal
  | ninf : SVal
  | val : ℚ → SVal
  | inf : SVal
  deriving DecidableEq, Repr

namespace FVal

/-- IEEE addition restricted to finite-or-NaN values: NaN propagates. -/
def add : FVal → FVal → FVal
  | nan, _ => nan
  | _, nan => nan
  | val a, val b => val (a + b)

/-- Test for the NaN sentinel. -/
def isnan : FVal → Bool
  | nan => true
  | val _ => false

/-- View a finite-or-NaN value as a score value. -/
def toS : FVal → SVal
  | nan => SVal.nan
  | val a => SVal.val a

end FVal

/-- IEEE division of two finite-or-NaN values (numerator / denominator):
NaN propagates, `a / 0` is `±inf` by the sign of `a`, and `0 / 0` is NaN. -/
def fdiv : FVal → FVal → SVal
  | FVal.nan, _ => SVal.nan
  | _, FVal.nan => SVal.nan
  | FVal.val a, FVal.val b =>
      if b = 0 then
        if a = 0 then SVal.nan
        else if 0 < a then SVal.inf else SVal.ninf
      else SVal.val (a / b)

namespace SVal

/-- Test for the NaN sentinel (`numpy.isnan`; infinities are not NaN). -/
def isnan : SVal → Bool
  | nan => true
  | _ => false

end SVal

/-- Strict order on non-NaN score values: `-inf < finite < +inf`.
NaN is never compared (it is replaced before any comparison). -/
def svalLt : SVal → SVal → Bool
  | SVal.ninf, SVal.ninf => false
  | SVal.ninf, SVal.nan => false
  | SVal.ninf, _ => true
  | SVal.val _, SVal.inf => true
  | SVal.val a, SVal.val b => decide (a < b)
  | _, _ => false

/-- Replacement performed by `numpy.nanargmin` / `nanargmax` before the
search: NaN becomes `+inf` when minimising and `-inf` when maximising. -/
def replaceNan (isMin : Bool) : SVal → SVal
  | SVal.nan => if isMin then SVal.inf else SVal.ninf
  | v => v

/-- Test whether every entry of a score vector is NaN. -/
def allNan : List SVal → Bool
  | [] => true
  | x :: xs => x.isnan && allNan xs

/-- First-occurrence arg-extremum over an already-NaN-replaced list,
carrying the position of the next element, the best position so far and the
best value so far; a later element displaces the best only when strictly
better, matching `numpy.argmin` / `argmax`. -/
def argExtrAux (isMin : Bool) : List SVal → Nat → Nat → SVal → Nat
  | [], _, bi, _ => bi
  | x :: rest, i, bi, bv =>
      if (if isMin then svalLt x bv else svalLt bv x) then
        argExtrAux isMin rest (i + 1) i x
      else
        argExtrAux isMin rest (i + 1) bi bv

/-- Model of `numpy.nanargmin` (`isMin = true`) and `numpy.nanargmax`
(`isMin = false`): `none` models the `ValueError` raised on an empty or
all-NaN input; otherwise NaN entries are replaced by `+inf` / `-inf` and the
first occurrence of the extremum is returned. -/
def nanarg (isMin : Bool) (xs : List SVal) : Option Nat :=
  if allNan xs then none
  else
    match xs.map (replaceNan isMin) with
    | [] => none
    | y :: ys => some (argExtrAux isMin ys 1 0 y)

/-- Python 3 `round` on an exact rational: round half to even. -/
def pyRound (q : ℚ) : ℤ :=
  let fl : ℤ := ⌊q⌋
  let fr : ℚ := q - fl
  if fr < 1 / 2 then fl
  else if 1 / 2 < fr then fl + 1
  else if fl % 2 = 0 then fl else fl + 1

/-- Python sequence indexing: nonnegative indices count from the front,
negative indices from the back, anything else is an `IndexError` (`none`). -/
def pyCanon (n : Nat) (i : ℤ) : Option Nat :=
  if 0 ≤ i ∧ i < (n : ℤ) then some i.toNat
  else if -(n : ℤ) ≤ i ∧ i < 0 then some (i + n).toNat
  else none

/-- Python sequence read `xs[i]` (with negative-index wrapping). -/
def pyGet (xs : List α) (i : ℤ) : Option α :=
  match pyCanon xs.length i with
  | none => none
  | some k => xs.get? k

/-- Python sequence write `xs[i] = v` (with negative-index wrapping);
out-of-range writes are never exercised by the theorems below. -/
def pySet (xs : List α) (i : ℤ) (v : α) : List α :=
  match pyCanon xs.length i with
  | none => xs
  | some k => xs.set k v

/-- Python exceptions raised by the distributor, one constructor per raise
site.  The comments give the Python exception class and source location. -/
inductive PyErr where
  | invalidMode          -- ValueError, distribute_idx (bad mode)
  | invalidFraction      -- ValueError, distribute_idx (f outside (0, 1])
  | invalidOperation     -- ValueError, uniform_idx (operation not min / max)
  | emptyArgSequence     -- ValueError from numpy arg-extremum of an empty array
  | invalidRandomness    -- ValueError, _parse_randomness (outside [0, 1])
  | startOutOfBounds     -- ValueError, uniform_idx (start row out of bounds);
                         -- the specification's IndexOutOfRange error kind
  | zeroClusterSize      -- ValueError, _min_and_max (cluster_size slice step 0)
  | clusterTypeMismatch  -- TypeError, _min_and_max (non-integer non-iterable)
  | allNanSlice          -- ValueError from numpy nanargmin / nanargmax
  | emptyChoice          -- ValueError from numpy.random.choice of an empty array
  | fancyIndexError      -- IndexError from ndarray integer-array indexing
  | fromiterShort        -- ValueError from numpy.fromiter(count=...) underrun
  deriving DecidableEq, Repr

/-- Python exception class of each raise site, as raised by the source. -/
def pyClass : PyErr → String
  | .invalidMode => "ValueError"
  | .invalidFraction => "ValueError"
  | .invalidOperation => "ValueError"
  | .emptyArgSequence => "ValueError"
  | .invalidRandomness => "ValueError"
  | .startOutOfBounds => "ValueError"
  | .zeroClusterSize => "ValueError"
  | .clusterTypeMismatch => "TypeError"
  | .allNanSlice => "ValueError"
  | .emptyChoice => "ValueError"
  | .fancyIndexError => "IndexError"
  | .fromiterShort => "ValueError"

/-- Oracle for the `numpy.random` draws made by `_random_arg_func`: draw
number `t` of `np.random.sample()` is `sample t` (a value in `[0, 1)`), and
`np.random.choice` over a `k`-element array at step `t` picks position
`choice t % k`.  Every concrete run of the source corresponds to some
oracle, and every oracle describes a legal run. -/
structure RngOracle where
  sample : Nat → ℚ
  choice : Nat → Nat

/-- Row `i` of the diagonal mask: entry `j` becomes NaN when `j = i`. -/
def maskRow (i : Nat) : Nat → List ℚ → List FVal
  | _, [] => []
  | j, x :: xs => (if i = j then FVal.nan else FVal.val x) :: maskRow i (j + 1) xs

/-- Rows of the diagonal mask from row index `i` on. -/
def maskRows : Nat → List (List ℚ) → List (List FVal)
  | _, [] => []
  | i, r :: rs => maskRow i 0 r :: maskRows (i + 1) rs

/-- Diagonal mask of `numpy.fill_diagonal(dist_sqr, np.nan)` applied to the
float64 copy of the caller's distance matrix. -/
def maskDiag (dist : List (List ℚ)) : List (List FVal) :=
  maskRows 0 dist

/-- Elementwise application of the user weight function (an elementwise
NaN-preserving ufunc such as the default `np.exp(-x)`). -/
def FVal.mapw (w : ℚ → ℚ) : FVal → FVal
  | FVal.nan => FVal.nan
  | FVal.val x => FVal.val (w x)

/-- The matrix `dist_sqr = weight(np.fill_diagonal-masked copy)`. -/
def weightMat (w : ℚ → ℚ) (m : List (List FVal)) : List (List FVal) :=
  m.map fun row => row.map (FVal.mapw w)

/-- Model of `numpy.nansum` over one row: NaN entries count as zero. -/
def nansumRow (row : List FVal) : ℚ :=
  (row.map fun v => match v with | FVal.nan => 0 | FVal.val x => x).sum

/-- Row `i` of a matrix (always in bounds where used). -/
def rowOf (m : List (List FVal)) (i : Nat) : List FVal := m.getD i []

/-- Positions of the non-NaN entries of a score vector; this is
`np.arange(n)[~np.isnan(dist_1d)]` from `_random_arg_func`. -/
def availPositions (xs : List SVal) : List Nat :=
  (List.range xs.length).filter fun i => !(xs.getD i SVal.nan).isnan

/-- The arg function used inside the greedy loops: the base operation
(`nanargmin` / `nanargmax`) possibly wrapped by `_parse_randomness`. -/
structure ArgCtx where
  isMin : Bool
  randomness : Option ℚ
  oracle : RngOracle

/-- One call of the (possibly randomness-wrapped) arg function at loop step
`t`: with probability `randomness` a uniformly random still-available
(non-NaN) position is chosen instead of the arg-extremum
(`_random_arg_func`); errors model the numpy raises. -/
def applyArg (ctx : ArgCtx) (t : Nat) (scores : List SVal) : Except PyErr Nat :=
  match ctx.randomness with
  | some thr =>
      if ctx.oracle.sample t < thr then
        let avail := availPositions scores
        if avail.isEmpty then Except.error PyErr.emptyChoice
        else Except.ok (avail.getD (ctx.oracle.choice t % avail.length) 0)
      else
        match nanarg ctx.isMin scores with
        | none => Except.error PyErr.allNanSlice
        | some i => Except.ok i
  | none =>
      match nanarg ctx.isMin scores with
      | none => Except.error PyErr.allNanSlice
      | some i => Except.ok i

/-- Helper generator `_min_or_max` of `uniform_idx` (the `cluster_size == 1`
path): repeatedly pick the arg-extremum of the accumulator `dist_1d_sqr`,
mark the pick NaN, add the pick's weighted-distance row into the
accumulator and yield the pick.  The fuel is `len(dist_1d_sqr) - 1` at the
call site; the result is the list of yields and the exception, if any, that
ended the generator early. -/
def min_or_max (dist_sqr : List (List FVal)) (ctx : ArgCtx) :
    Nat → Nat → List FVal → List ℤ × Option PyErr
  | 0, _, _ => ([], none)
  | fuel + 1, t, d =>
      match applyArg ctx t (d.map FVal.toS) with
      | Except.error e => ([], some e)
      | Except.ok i =>
          let d1 := d.set i FVal.nan
          let d2 := List.zipWith FVal.add d1 (rowOf dist_sqr i)
          let r := min_or_max dist_sqr ctx fuel (t + 1) d2
          ((i : ℤ) :: r.1, r.2)

/-- Positions in `[0, n)` marked `True` by the slice assignment
`bool_ar[::k] = True` for a non-zero integer step `k`. -/
def sliceStepFlags (n : Nat) (k : ℤ) : List Bool :=
  (List.range n).map fun (i : Nat) =>
    if 0 < k then decide ((i : ℤ) % k = 0)
    else decide ((((n : ℤ) - 1) - (i : ℤ)) % (-k) = 0)

/-- Modelled from the spec: `cycle_accumulate` is imported from `CAT.utils`,
whose source is not available; per the spec, cluster sizes "cycle through
the sequence, restarting when exhausted", so it yields the running
cumulative totals of the cyclically repeated `clusters` sequence.  This
definition fuses it with the `takewhile(lambda x: x < ar_size, ...)` bound
of `_parse_cluster_size`; the fuel makes the recursion total (the source
loops forever when the cycled totals never reach the bound, which the fuel
truncates instead). -/
def cycle_accumulate_takewhile (clusters : List ℤ) (bound : ℤ) :
    Nat → ℤ → List ℤ → List ℤ
  | 0, _, _ => []
  | fuel + 1, acc, rest =>
      match rest with
      | [] =>
          if clusters.isEmpty then []
          else cycle_accumulate_takewhile clusters bound fuel acc clusters
      | c :: rest' =>
          let acc2 := acc + c
          if acc2 < bound then
            acc2 :: cycle_accumulate_takewhile clusters bound fuel acc2 rest'
          else []

/-- Helper `_parse_cluster_size`: the cumulative cycled cluster sizes that
are still below `ar_size` (the indices at which clusters begin). -/
def parse_cluster_size (ar_size : Nat) (clusters : List ℤ) : List ℤ :=
  cycle_accumulate_takewhile clusters (ar_size : ℤ)
    (2 * ar_size + 2 * clusters.length + 2) 0 clusters

/-- Model of the Python value passed as `cluster_size`: an integer, an
iterable of integers, or a non-integer non-iterable number (a float). -/
inductive PyClusterSize where
  | int : ℤ → PyClusterSize
  | iter : List ℤ → PyClusterSize
  | float : ℚ → PyClusterSize
  deriving DecidableEq, Repr

/-- Python equality test `cluster_size == 1` (note `1.0 == 1` is `True`). -/
def PyClusterSize.eqOne : PyClusterSize → Bool
  | PyClusterSize.int k => k = 1
  | PyClusterSize.float q => q = 1
  | PyClusterSize.iter _ => false

/-- Construction of the cluster-boundary boolean array `bool_ar` of
`_min_and_max` (before the `bool_ar[1:]` drop): iterables mark the
cumulative cycled positions, integers mark every `k`-th position through
slice assignment (step 0 raises ValueError), and non-integer non-iterable
values raise TypeError. -/
def flagsIter (n : Nat) (l : List ℤ) : List Bool :=
  let idxs := (parse_cluster_size n l).filterMap (pyCanon n)
  (List.range n).map fun i => idxs.contains i

/-- Dispatch on the type of `cluster_size` performed by `_min_and_max` when
building `bool_ar` (see `flagsIter` and `sliceStepFlags`). -/
def boolFlags (n : Nat) : PyClusterSize → Except PyErr (List Bool)
  | PyClusterSize.iter l => Except.ok (flagsIter n l)
  | PyClusterSize.int k =>
      if k = 0 then Except.error PyErr.zeroClusterSize
      else Except.ok (sliceStepFlags n k)
  | PyClusterSize.float _ => Except.error PyErr.clusterTypeMismatch

/-- Helper generator `_min_and_max` of `uniform_idx` (`cluster_size != 1`):
the boolean list drives the iterations; at a `true` flag (start of a new
cluster) the in-progress accumulator `dist_cluster` is folded into
`dist_1d_sqr` and reset to zero and the score is `dist_1d_sqr` itself,
otherwise the score is the elementwise ratio
`dist_1d_sqr / dist_cluster`; the pick is marked NaN in `dist_1d_sqr` and
its row is added into `dist_cluster`. -/
def min_and_max (dist_sqr : List (List FVal)) (ctx : ArgCtx) :
    List Bool → Nat → List FVal → List FVal → List ℤ × Option PyErr
  | [], _, _, _ => ([], none)
  | b :: bs, t, d, dc =>
      let st : List FVal × List FVal × List SVal :=
        if b then
          let d2 := List.zipWith FVal.add d dc
          (d2, dc.map fun _ => FVal.val 0, d2.map FVal.toS)
        else
          (d, dc, List.zipWith fdiv d dc)
      match applyArg ctx t st.2.2 with
      | Except.error e => ([], some e)
      | Except.ok j =>
          let d1 := st.1.set j FVal.nan
          let dc1 := List.zipWith FVal.add st.2.1 (rowOf dist_sqr j)
          let r := min_and_max dist_sqr ctx bs (t + 1) d1 dc1
          ((j : ℤ) :: r.1, r.2)

/-- The generator `uniform_idx(dist, operation, cluster_size, start,
randomness, weight)`: result is the list of yielded column indices together
with the exception, if any, that ended the generator.  The first yield is
the raw `start` value (so a user-supplied negative in-bounds index is
yielded as given). -/
def uniform_idx (dist : List (List ℚ)) (operation : String)
    (cluster_size : PyClusterSize) (start : Option ℤ) (randomness : Option ℚ)
    (w : ℚ → ℚ) (oracle : RngOracle) : List ℤ × Option PyErr :=
  let n := dist.length
  let dist_sqr := weightMat w (maskDiag dist)
  if operation == "min" || operation == "max" then
    let isMin := operation == "min"
    let start0 : Except PyErr ℤ :=
      match start with
      | some s => Except.ok s
      | none =>
          match nanarg isMin (dist_sqr.map fun row => SVal.val (nansumRow row)) with
          | none => Except.error PyErr.emptyArgSequence
          | some k => Except.ok (k : ℤ)
    match start0 with
    | Except.error e => ([], some e)
    | Except.ok s =>
        match (match randomness with
               | none => Except.ok (none : Option ℚ)
               | some r =>
                   if 0 ≤ r ∧ r ≤ 1 then Except.ok (some r)
                   else Except.error PyErr.invalidRandomness) with
        | Except.error e => ([], some e)
        | Except.ok rnd =>
            match pyCanon n s with
            | none => ([], some PyErr.startOutOfBounds)
            | some k =>
                let dist_1d := pySet (rowOf dist_sqr k) s FVal.nan
                let ctx : ArgCtx := ⟨isMin, rnd, oracle⟩
                let tail :=
                  if cluster_size.eqOne then
                    min_or_max dist_sqr ctx (n - 1) 0 dist_1d
                  else
                    match boolFlags n cluster_size with
                    | Except.error e => ([], some e)
                    | Except.ok flags =>
                        min_and_max dist_sqr ctx (flags.drop 1) 0 dist_1d dist_1d
                (s :: tail.1, tail.2)
  else ([], some PyErr.invalidOperation)

/-- Advance a cycling cursor over the cluster-size sequence `orig`: take the
next size from the remaining suffix `cur`, restarting from `orig` when the
suffix is exhausted (`orig` is assumed nonempty where this matters). -/
def nextSize (orig cur : List ℤ) : ℤ × List ℤ :=
  match cur with
  | c :: rest => (c, rest)
  | [] =>
      match orig with
      | c :: rest => (c, rest)
      | [] => (0, [])

/-- Sum of the next `j` sizes drawn from the cycling cursor `(orig, cur)`. -/
def cycSum (orig : List ℤ) : List ℤ → Nat → ℤ
  | _, 0 => 0
  | cur, j + 1 =>
      let s := nextSize orig cur
      s.1 + cycSum orig s.2 j

/-- Modelled from the spec (the reference side of the C4 refinement):
per the spec, indices are grouped into clusters whose sizes come from the
`ClusterSizeSpec` — "a fixed positive integer k (every group of k
consecutively-yielded indices forms a cluster) or a repeating sequence of
positive integers (cluster sizes cycle through the sequence, restarting
when exhausted)" — and "at the start of a new cluster, the running
accumulator is folded into a completed-clusters accumulator and reset;
within a growing cluster, the candidate score is the ratio of the
completed-clusters accumulated weight to the in-progress-cluster
accumulated weight".  The loop tracks how many slots remain in the cluster
currently being grown (`remaining`; the first cluster already contains the
yielded start index) and the cycling cursor over the size sequence. -/
def cluster_spec_loop (dist_sqr : List (List FVal)) (ctx : ArgCtx)
    (orig : List ℤ) :
    Nat → Nat → ℤ → List ℤ → List FVal → List FVal → List ℤ × Option PyErr
  | 0, _, _, _, _, _ => ([], none)
  | fuel + 1, t, remaining, cur, d, dc =>
      if remaining ≤ 0 then
        let d2 := List.zipWith FVal.add d dc
        let dc0 := dc.map fun _ => FVal.val 0
        match applyArg ctx t (d2.map FVal.toS) with
        | Except.error e => ([], some e)
        | Except.ok j =>
            let s := nextSize orig cur
            let r := cluster_spec_loop dist_sqr ctx orig fuel (t + 1) (s.1 - 1)
                       s.2 (d2.set j FVal.nan)
                       (List.zipWith FVal.add dc0 (rowOf dist_sqr j))
            ((j : ℤ) :: r.1, r.2)
      else
        match applyArg ctx t (List.zipWith fdiv d dc) with
        | Except.error e => ([], some e)
        | Except.ok j =>
            let r := cluster_spec_loop dist_sqr ctx orig fuel (t + 1)
                       (remaining - 1) cur (d.set j FVal.nan)
                       (List.zipWith FVal.add dc (rowOf dist_sqr j))
            ((j : ℤ) :: r.1, r.2)

/-- Boundary-flag list generated by the countdown state of
`cluster_spec_loop`; used to relate it to the boolean array of the source. -/
def specFlags (orig : List ℤ) : Nat → ℤ → List ℤ → List Bool
  | 0, _, _ => []
  | fuel + 1, remaining, cur =>
      if remaining ≤ 0 then
        let s := nextSize orig cur
        true :: specFlags orig fuel (s.1 - 1) s.2
      else false :: specFlags orig fuel (remaining - 1) cur

/-- Model of the Python value passed as `idx` to `distribute_idx`: an
existing integer ndarray, a list / iterable of integers, or a scalar. -/
inductive PyIdx where
  | ndarrayInt : List ℤ → PyIdx
  | pyList : List ℤ → PyIdx
  | scalar : ℤ → PyIdx
  deriving DecidableEq, Repr

/-- Element list of a Python `idx` value. -/
def PyIdx.toListInt : PyIdx → List ℤ
  | PyIdx.ndarrayInt xs => xs
  | PyIdx.pyList xs => xs
  | PyIdx.scalar k => [k]

/-- Conversion `np.array(idx, dtype=int, ndmin=1, copy=False)`: returns the
element list and whether the result is the very same object as the input
(no conversion was needed, so no copy was made). -/
def npArrayNoCopy : PyIdx → List ℤ × Bool
  | PyIdx.ndarrayInt xs => (xs, true)
  | PyIdx.pyList xs => (xs, false)
  | PyIdx.scalar k => ([k], false)

/-- Resolve a list of Python indices against `xs`; `none` as soon as one is
out of bounds. -/
def pyGetEach (xs : List α) : List ℤ → Option (List α)
  | [] => some []
  | p :: ps =>
      match pyGet xs p, pyGetEach xs ps with
      | some v, some vs => some (v :: vs)
      | _, _ => none

/-- Integer-array ("fancy") indexing `xs[pos]` of an ndarray: every index is
resolved with Python negative-index wrapping; any out-of-bounds index
raises IndexError. -/
def npFancyIndex (xs : List α) (pos : List ℤ) : Except PyErr (List α) :=
  match pyGetEach xs pos with
  | none => Except.error PyErr.fancyIndexError
  | some ys => Except.ok ys

/-- Model of `np.random.permutation` driven by a seed list: repeatedly pick
the element at position `seed value mod remaining length` and remove it.
Every permutation of the input is produced by some seed and every seed
produces a permutation. -/
def permAux : Nat → List Nat → List ℤ → List ℤ
  | 0, _, _ => []
  | fuel + 1, seed, xs =>
      if xs.isEmpty then []
      else
        let k := seed.headD 0 % xs.length
        xs.getD k 0 :: permAux fuel (seed.drop 1) (xs.eraseIdx k)

/-- The permutation `np.random.permutation(idx_ar)` (a fresh array). -/
def np_random_permutation (seed : List Nat) (xs : List ℤ) : List ℤ :=
  permAux xs.length seed xs

/-- Keyword options of `distribute_idx` with the source's `kwargs.get`
defaults (`follow_edge=False`, `start=None`, `cluster_size=1`,
`randomness=None`, `weight=lambda x: np.exp(-x)`); the weight is kept as a
function parameter. -/
structure DistOpts where
  follow_edge : Bool
  start : Option ℤ
  cluster_size : PyClusterSize
  randomness : Option ℚ
  weight : ℚ → ℚ

/-- Result of `distribute_idx`: the returned index array and whether its
buffer is independent of the caller's `idx` object (a fresh array). -/
structure DistResult where
  toList : List ℤ
  fresh : Bool
  deriving DecidableEq, Repr

/-- The allowed `mode` values (`mode_set`). -/
def mode_set : List String := ["uniform", "random", "cluster"]

/-- The public operation `distribute_idx(core, idx, f, mode, **kwargs)`.
`cdistF` models the external `scipy.spatial.distance.cdist(xyz, xyz)`
primitive and `edge_distF` the external `edge_dist` (edge-following) metric
of the spec; both are collaborator parameters producing a distance matrix
from the selected coordinate rows.  `permSeed` and `oracle` supply the
`numpy.random` draws. -/
def distribute_idx (cdistF edge_distF : List (List ℚ) → List (List ℚ))
    (core : List (List ℚ)) (idx : PyIdx) (f : ℚ) (mode : String)
    (opts : DistOpts) (oracle : RngOracle) (permSeed : List Nat) :
    Except PyErr DistResult :=
  let conv := npArrayNoCopy idx
  let idx_ar := conv.1
  if ¬ (mode_set.contains mode) then Except.error PyErr.invalidMode
  else if ¬ (0 < f ∧ f ≤ 1) then Except.error PyErr.invalidFraction
  else if f = 1 then Except.ok ⟨idx_ar, if conv.2 then true else !conv.2⟩
  else
    let stop := (max 1 (pyRound (f * (idx_ar.length : ℚ)))).toNat
    if mode == "uniform" || mode == "cluster" then
      match npFancyIndex core idx_ar with
      | Except.error e => Except.error e
      | Except.ok xyz =>
          let dist := if opts.follow_edge then edge_distF xyz else cdistF xyz
          let operation := if mode == "uniform" then "min" else "max"
          let run := uniform_idx dist operation opts.cluster_size opts.start
                        opts.randomness opts.weight oracle
          if stop ≤ run.1.length then
            match npFancyIndex idx_ar (run.1.take stop) with
            | Except.error e => Except.error e
            | Except.ok ret => Except.ok ⟨ret.take stop, true⟩
          else
            Except.error (run.2.getD PyErr.fromiterShort)
    else
      Except.ok ⟨(np_random_permutation permSeed idx_ar).take stop, true⟩

/-! Heap-instrumented version of `uniform_idx`, used to verify the frame
property (the caller's `dist` buffer is never written): ndarray buffers
live in an explicit heap addressed by allocation order, every in-place
numpy operation of the source is a write to the id of the buffer it
targets, and buffer-creating operations allocate fresh ids.  The caller's
matrix can hold arbitrary float64 contents, so buffers are `FVal`
matrices / vectors. -/

/-- Explicit two-kind heap of ndarray buffers (2-D and 1-D). -/
structure NpHeap where
  mats : List (List (List FVal))
  vecs : List (List FVal)

/-- Allocate a fresh 2-D buffer, returning its id. -/
def allocMat (h : NpHeap) (m : List (List FVal)) : NpHeap × Nat :=
  (⟨h.mats ++ [m], h.vecs⟩, h.mats.length)

/-- Read a 2-D buffer. -/
def readMat (h : NpHeap) (i : Nat) : List (List FVal) := h.mats.getD i []

/-- Overwrite a 2-D buffer in place. -/
def writeMat (h : NpHeap) (i : Nat) (m : List (List FVal)) : NpHeap :=
  ⟨h.mats.set i m, h.vecs⟩

/-- Allocate a fresh 1-D buffer, returning its id. -/
def allocVec (h : NpHeap) (v : List FVal) : NpHeap × Nat :=
  (⟨h.mats, h.vecs ++ [v]⟩, h.vecs.length)

/-- Read a 1-D buffer. -/
def readVec (h : NpHeap) (i : Nat) : List FVal := h.vecs.getD i []

/-- Overwrite a 1-D buffer in place. -/
def writeVec (h : NpHeap) (i : Nat) (v : List FVal) : NpHeap :=
  ⟨h.mats, h.vecs.set i v⟩

/-- Rows of the in-place diagonal fill from row index `i` on. -/
def fillDiagRows : Nat → List (List FVal) → List (List FVal)
  | _, [] => []
  | i, r :: rs =>
      (r.mapIdx fun j x => if i = j then FVal.nan else x) :: fillDiagRows (i + 1) rs

/-- In-place `np.fill_diagonal(dist_sqr, np.nan)` on a float64 matrix. -/
def fillDiagNan (m : List (List FVal)) : List (List FVal) :=
  fillDiagRows 0 m

/-- Heap-instrumented `_min_or_max`: reads rows of the buffer `dsqId`,
writes only the accumulator buffer `d1Id`. -/
def min_or_max_heap (dsqId : Nat) (ctx : ArgCtx) :
    Nat → Nat → Nat → NpHeap → (List ℤ × Option PyErr) × NpHeap
  | 0, _, _, h => (([], none), h)
  | fuel + 1, t, d1Id, h =>
      match applyArg ctx t ((readVec h d1Id).map FVal.toS) with
      | Except.error e => (([], some e), h)
      | Except.ok i =>
          let h1 := writeVec h d1Id ((readVec h d1Id).set i FVal.nan)
          let h2 := writeVec h1 d1Id
            (List.zipWith FVal.add (readVec h1 d1Id) (rowOf (readMat h1 dsqId) i))
          let r := min_or_max_heap dsqId ctx fuel (t + 1) d1Id h2
          ((( i : ℤ) :: r.1.1, r.1.2), r.2)

/-- Heap-instrumented `_min_and_max`: reads rows of `dsqId`, writes only
the accumulator buffers `d1Id` and `dcId` (the transient score array of a
growth step is a fresh temporary and is kept local). -/
def min_and_max_heap (dsqId : Nat) (ctx : ArgCtx) :
    List Bool → Nat → Nat → Nat → NpHeap → (List ℤ × Option PyErr) × NpHeap
  | [], _, _, _, h => (([], none), h)
  | b :: bs, t, d1Id, dcId, h =>
      let step :=
        if b then
          let h1 := writeVec h d1Id
            (List.zipWith FVal.add (readVec h d1Id) (readVec h dcId))
          let h2 := writeVec h1 dcId ((readVec h1 dcId).map fun _ => FVal.val 0)
          (h2, (readVec h2 d1Id).map FVal.toS)
        else
          (h, List.zipWith fdiv (readVec h d1Id) (readVec h dcId))
      match applyArg ctx t step.2 with
      | Except.error e => (([], some e), step.1)
      | Except.ok j =>
          let h3 := writeVec step.1 d1Id ((readVec step.1 d1Id).set j FVal.nan)
          let h4 := writeVec h3 dcId
            (List.zipWith FVal.add (readVec h3 dcId) (rowOf (readMat h3 dsqId) j))
          let r := min_and_max_heap dsqId ctx bs (t + 1) d1Id dcId h4
          ((( j : ℤ) :: r.1.1, r.1.2), r.2)

/-- Heap-instrumented `uniform_idx`: the caller's distance matrix is the
buffer `distId`; the entry copy `np.array(dist, dtype=float, copy=True)`
allocates a private 2-D buffer, `np.fill_diagonal` writes that private
buffer in place, the weight ufunc allocates a fresh result, the row copy
`dist_sqr[start].copy()` allocates a private 1-D buffer, and every
sentinel write in the loops targets the private buffers only. -/
def uniform_idx_heap (h0 : NpHeap) (distId : Nat) (operation : String)
    (cluster_size : PyClusterSize) (start : Option ℤ) (randomness : Option ℚ)
    (w : ℚ → ℚ) (oracle : RngOracle) : (List ℤ × Option PyErr) × NpHeap :=
  let dist := readMat h0 distId
  let n := dist.length
  let a1 := allocMat h0 dist
  let h2 := writeMat a1.1 a1.2 (fillDiagNan (readMat a1.1 a1.2))
  let a3 := allocMat h2 (weightMat w (readMat h2 a1.2))
  let h3 := a3.1
  let dsqId := a3.2
  if operation == "min" || operation == "max" then
    let isMin := operation == "min"
    let start0 : Except PyErr ℤ :=
      match start with
      | some s => Except.ok s
      | none =>
          match nanarg isMin ((readMat h3 dsqId).map fun row =>
              SVal.val (nansumRow row)) with
          | none => Except.error PyErr.emptyArgSequence
          | some k => Except.ok (k : ℤ)
    match start0 with
    | Except.error e => (([], some e), h3)
    | Except.ok s =>
        match (match randomness with
               | none => Except.ok (none : Option ℚ)
               | some r =>
                   if 0 ≤ r ∧ r ≤ 1 then Except.ok (some r)
                   else Except.error PyErr.invalidRandomness) with
        | Except.error e => (([], some e), h3)
        | Except.ok rnd =>
            match pyCanon n s with
            | none => (([], some PyErr.startOutOfBounds), h3)
            | some k =>
                let a4 := allocVec h3 (rowOf (readMat h3 dsqId) k)
                let h5 := writeVec a4.1 a4.2 (pySet (readVec a4.1 a4.2) s FVal.nan)
                let ctx : ArgCtx := ⟨isMin, rnd, oracle⟩
                let tail :=
                  if cluster_size.eqOne then
                    min_or_max_heap dsqId ctx (n - 1) 0 a4.2 h5
                  else
                    match boolFlags n cluster_size with
                    | Except.error e => (([], some e), h5)
                    | Except.ok flags =>
                        let a6 := allocVec h5 (readVec h5 a4.2)
                        min_and_max_heap dsqId ctx (flags.drop 1) 0 a4.2 a6.2 a6.1
                ((s :: tail.1.1, tail.1.2), tail.2)
  else (([], some PyErr.invalidOperation), h3)

/-! Concrete fixtures used by counterexamples and witnesses. -/

/-- Strictly positive executable stand-in for the default weight
`np.exp(-x)` (positive and decreasing for nonnegative distances). -/
def wpos : ℚ → ℚ := fun x => 1 / (1 + x ^ 2)

/-- Deterministic random oracle: every `sample` draw is `1/2`, every
`choice` draw picks the first available element. -/
def oracle0 : RngOracle := ⟨fun _ => 1 / 2, fun _ => 0⟩

/-- Default options of `distribute_idx` (`kwargs` absent). -/
def opts0 : DistOpts := ⟨false, none, PyClusterSize.int 1, none, wpos⟩

/-- Executable stand-in for the external `cdist` collaborator: the
pairwise squared-distance metric (symmetric, zero diagonal). -/
def cdistSq (xyz : List (List ℚ)) : List (List ℚ) :=
  xyz.map fun p => xyz.map fun q => (List.zipWith (fun a b => (a - b) ^ 2) p q).sum

/-- Five collinear points. -/
def coreLine : List (List ℚ) := [[0], [1], [2], [3], [4]]

/-- Symmetric 3-by-3 distance matrix of the uniqueness counterexample. -/
def cexDist33 : List (List ℚ) := [[0, 4, 2], [4, 0, 5], [2, 5, 0]]

/-- Sum of the weight-transformed entries of a row, skipping column `k`
(the masked diagonal); `j` is the current column index. -/
def offDiagWeightedSum (w : ℚ → ℚ) (k : Nat) : Nat → List ℚ → ℚ
  | _, [] => 0
  | j, x :: xs => (if k = j then 0 else w x) + offDiagWeightedSum w k (j + 1) xs

/-- The NaN-ignoring sum of row `k` of the weight-transformed,
diagonal-masked distance matrix, written directly over the caller's
matrix: the quantity whose row-wise arg-extremum the spec designates as
the default starting index. -/
def weightedRowSum (w : ℚ → ℚ) (dist : List (List ℚ)) (k : Nat) : ℚ :=
  offDiagWeightedSum w k 0 (dist.getD k [])

/-- "Strictly better" comparison used by the arg-extremum search: smaller
wins when minimising, larger wins when maximising. -/
def betterB (isMin : Bool) (x y : SVal) : Bool :=
  if isMin then svalLt x y else svalLt y x

/-- Well-formed weighted masked matrix: square of size `n`, NaN exactly on
the diagonal. -/
structure WFMat (M : List (List FVal)) (n : Nat) : Prop where
  len : M.length = n
  rowLen : ∀ i, i < n → (rowOf M i).length = n
  diag : ∀ i, i < n → (rowOf M i).getD i FVal.nan = FVal.nan
  off : ∀ i j, i < n → j < n → j ≠ i →
    ((rowOf M i).getD j FVal.nan).isnan = false

/-- Positive weighted masked matrix: every off-diagonal entry is a strictly
positive finite value (the case of a strictly positive weight function). -/
def PosMat (M : List (List FVal)) (n : Nat) : Prop :=
  ∀ i j, i < n → j < n → j ≠ i →
    ∃ q, (rowOf M i).getD j FVal.nan = FVal.val q ∧ 0 < q

/-- Positions of the non-NaN entries of an accumulator vector. -/
def availList (d : List FVal) : List Nat :=
  (List.range d.length).filter fun p => !(d.getD p FVal.nan).isnan

/-- Invariant tying the two accumulators of the cluster loop: both have
length `n`, every NaN of `dist_cluster` is a NaN of `dist_1d_sqr`, and the
finite entries of `dist_cluster` are strictly positive. -/
def DCInv (n : Nat) (d dc : List FVal) : Prop :=
  d.length = n ∧ dc.length = n ∧
  (∀ p, p < n → (dc.getD p FVal.nan).isnan = true →
    (d.getD p FVal.nan).isnan = true) ∧
  (∀ p q, p < n → dc.getD p FVal.nan = FVal.val q → 0 < q)

/-- Validity of a `cluster_size` per the spec: a positive integer, a
nonempty sequence of positive integers, or a float equal to `1` (which
Python's `==` lets through as cluster size one). -/
def validCS : PyClusterSize → Prop
  | PyClusterSize.int k => 0 < k
  | PyClusterSize.iter l => l ≠ [] ∧ ∀ c ∈ l, 0 < c
  | PyClusterSize.float q => q = 1

/-- Options with a zero integer cluster size and explicit start `0`. -/
def optsZC : DistOpts := ⟨false, some 0, PyClusterSize.int 0, none, wpos⟩

/-- The three input shapes all convert to the same element list. -/
theorem npArrayNoCopy_fst (idx : PyIdx) : (npArrayNoCopy idx).1 = idx.toListInt := by
  cases idx <;> rfl

/-- Helper: the `f == 1.0` short circuit of `distribute_idx` returns the
candidate list itself, as a fresh buffer, for every valid mode. -/
theorem f_one_short_circuit
    (cdistF edge_distF : List (List ℚ) → List (List ℚ))
    (core : List (List ℚ)) (idx : PyIdx) (mode : String) (opts : DistOpts)
    (oracle : RngOracle) (seed : List Nat) (hm : mode ∈ mode_set) :
    distribute_idx cdistF edge_distF core idx 1 mode opts oracle seed =
      Except.ok ⟨idx.toListInt, true⟩ := by
  simp only [mode_set, List.mem_cons, List.not_mem_nil, or_false] at hm
  rcases hm with h | h | h <;> subst h <;> cases idx <;>
    simp [distribute_idx, npArrayNoCopy, PyIdx.toListInt,
      show mode_set.contains "uniform" = true from by decide,
      show mode_set.contains "random" = true from by decide,
      show mode_set.contains "cluster" = true from by decide] <;>
    (try decide) <;> norm_num

/-- C5: for every valid mode and every combination of other options,
`distribute_idx` with `f == 1.0` returns all candidate indices in their
input order as an independent copy (a buffer not aliasing the caller's
`idx` object). -/
theorem distribute_idx_f_eq_one_returns_copy
    (cdistF edge_distF : List (List ℚ) → List (List ℚ))
    (core : List (List ℚ)) (idx : PyIdx) (mode : String) (opts : DistOpts)
    (oracle : RngOracle) (seed : List Nat) (hm : mode ∈ mode_set) :
    distribute_idx cdistF edge_distF core idx 1 mode opts oracle seed =
      Except.ok ⟨idx.toListInt, true⟩ :=
  f_one_short_circuit cdistF edge_distF core idx mode opts oracle seed hm

/-- Witness for C5 at a concrete input. -/
theorem distribute_idx_f_eq_one_returns_copy_witness :
    distribute_idx cdistSq cdistSq coreLine (PyIdx.pyList [5, 7]) 1 "random"
        opts0 oracle0 [] = Except.ok ⟨[5, 7], true⟩ :=
  distribute_idx_f_eq_one_returns_copy cdistSq cdistSq coreLine
    (PyIdx.pyList [5, 7]) "random" opts0 oracle0 [] (by decide)

/-- C6 counterexample: with `f = 1.0` the `f == 1.0` short circuit of
`distribute_idx` fires before the `mode == "random"` branch, so the order
never varies across calls: even a permutation seed that would reorder
`[0,1,2,3,4]` (first conjunct) produces the identity order, the same
output as every other seed. -/
theorem distribute_idx_random_f_one_cex :
    np_random_permutation [3, 1, 2] [0, 1, 2, 3, 4] ≠ [0, 1, 2, 3, 4] ∧
    distribute_idx cdistSq cdistSq coreLine (PyIdx.pyList [0, 1, 2, 3, 4]) 1
        "random" opts0 oracle0 [3, 1, 2] =
      Except.ok ⟨[0, 1, 2, 3, 4], true⟩ ∧
    distribute_idx cdistSq cdistSq coreLine (PyIdx.pyList [0, 1, 2, 3, 4]) 1
        "random" opts0 oracle0 [] =
      Except.ok ⟨[0, 1, 2, 3, 4], true⟩ :=
  ⟨by decide, rfl, rfl⟩

/-- C6 amended: repeated calls with `mode="random"` and `f=1.0` on
candidate indices `[0,1,2,3,4]` return all five indices every time, but the
order never varies: `f == 1.0` short-circuits before the permutation, so
every call returns `[0,1,2,3,4]` in input order, for every random seed,
oracle and option set. -/
theorem distribute_idx_random_f_one_constant
    (cdistF edge_distF : List (List ℚ) → List (List ℚ))
    (core : List (List ℚ)) (opts : DistOpts) (oracle : RngOracle)
    (seed : List Nat) :
    distribute_idx cdistF edge_distF core (PyIdx.pyList [0, 1, 2, 3, 4]) 1
        "random" opts oracle seed = Except.ok ⟨[0, 1, 2, 3, 4], true⟩ :=
  f_one_short_circuit cdistF edge_distF core
    (PyIdx.pyList [0, 1, 2, 3, 4]) "random" opts oracle seed (by decide)

/-- C7 counterexample: `cluster_size = 0` does not always raise: when only
one index is requested (`stop = 1`, here `f = 1/4` over four candidates)
the lazy generator is never advanced past its first yield, the zero-step
slice assignment that raises ValueError is never executed, and
`distribute_idx` returns successfully. -/
theorem distribute_idx_zero_cluster_stop_one_cex :
    distribute_idx cdistSq cdistSq coreLine (PyIdx.pyList [0, 1, 2, 3])
        (1 / 4) "uniform" ⟨false, none, PyClusterSize.int 0, none, wpos⟩
        oracle0 [] = Except.ok ⟨[0], true⟩ := by
  have hxyz : pyGetEach coreLine ([0, 1, 2, 3] : List ℤ) =
      some [[0], [1], [2], [3]] := by decide
  have hcd : cdistSq [[0], [1], [2], [3]] =
      [[0, 1, 4, 9], [1, 0, 1, 4], [4, 1, 0, 1], [9, 4, 1, 0]] := by
    norm_num [cdistSq]
  have hW : weightMat wpos
        (maskDiag [[0, 1, 4, 9], [1, 0, 1, 4], [4, 1, 0, 1], [9, 4, 1, 0]]) =
      [[FVal.nan, FVal.val (1/2), FVal.val (1/17), FVal.val (1/82)],
       [FVal.val (1/2), FVal.nan, FVal.val (1/2), FVal.val (1/17)],
       [FVal.val (1/17), FVal.val (1/2), FVal.nan, FVal.val (1/2)],
       [FVal.val (1/82), FVal.val (1/17), FVal.val (1/2), FVal.nan]] := by
    norm_num [weightMat, maskDiag, maskRows, maskRow, FVal.mapw, wpos]
  have hU : uniform_idx [[0, 1, 4, 9], [1, 0, 1, 4], [4, 1, 0, 1], [9, 4, 1, 0]]
        "min" (PyClusterSize.int 0) none none wpos oracle0 =
      ([0], some PyErr.zeroClusterSize) := by
    norm_num [uniform_idx, hW, nansumRow, nanarg, allNan, replaceNan,
      argExtrAux, svalLt, pyCanon, pySet, rowOf, FVal.toS, SVal.isnan,
      FVal.isnan, boolFlags, PyClusterSize.eqOne]
  have hidx : pyGetEach ([0, 1, 2, 3] : List ℤ) ([0] : List ℤ) =
      some [0] := by decide
  norm_num [distribute_idx, mode_set, npArrayNoCopy, npFancyIndex, hxyz, hidx,
    hcd, hU, pyRound]

/-- C8 counterexample: a zero `cluster_size` is not rejected before any
index is yielded: `uniform_idx` on a 2-by-2 matrix yields its first index
and only then raises ValueError from the zero-step slice assignment, so the
yield list accompanying the error is nonempty. -/
theorem uniform_idx_zero_cluster_yield_then_error_cex :
    uniform_idx [[0, 1], [1, 0]] "min" (PyClusterSize.int 0) none none wpos
        oracle0 = ([0], some PyErr.zeroClusterSize) ∧
      ([0] : List ℤ) ≠ [] := by
  refine ⟨?_, by decide⟩
  have hW : weightMat wpos (maskDiag [[0, 1], [1, 0]]) =
      [[FVal.nan, FVal.val (1/2)], [FVal.val (1/2), FVal.nan]] := by
    norm_num [weightMat, maskDiag, maskRows, maskRow, FVal.mapw, wpos]
  norm_num [uniform_idx, hW, nansumRow, nanarg, allNan, replaceNan,
    argExtrAux, svalLt, pyCanon, pySet, rowOf, FVal.toS, SVal.isnan,
    FVal.isnan, boolFlags, PyClusterSize.eqOne]

/-- Truncating the output of `min_or_max` to `m` elements equals running it
with fuel `min m fuel`: the first `m` yields never depend on later
iterations. -/
theorem min_or_max_take (M : List (List FVal)) (ctx : ArgCtx) :
    ∀ (fuel t : Nat) (d : List FVal) (m : Nat),
      (min_or_max M ctx fuel t d).1.take m =
        (min_or_max M ctx (min m fuel) t d).1 := by
  intro fuel
  induction fuel with
  | zero => intro t d m; simp [min_or_max]
  | succ fuel ih =>
      intro t d m
      cases m with
      | zero => simp [min_or_max]
      | succ m =>
          have hmin : min (m + 1) (fuel + 1) = min m fuel + 1 := by omega
          rw [hmin]
          cases h : applyArg ctx t (d.map FVal.toS) with
          | error e => simp [min_or_max, h]
          | ok i =>
              simp only [min_or_max, h, List.take_succ_cons]
              rw [ih]

/-- Truncating the output of `min_and_max` to `m` elements equals running it
on the first `m` boundary flags only. -/
theorem min_and_max_take (M : List (List FVal)) (ctx : ArgCtx) :
    ∀ (flags : List Bool) (t : Nat) (d dc : List FVal) (m : Nat),
      (min_and_max M ctx flags t d dc).1.take m =
        (min_and_max M ctx (flags.take m) t d dc).1 := by
  intro flags
  induction flags with
  | nil => intro t d dc m; simp [min_and_max]
  | cons b bs ih =>
      intro t d dc m
      cases m with
      | zero => simp [min_and_max]
      | succ m =>
          rcases Bool.eq_false_or_eq_true b with hb | hb <;> subst hb
          · cases h : applyArg ctx t
                ((List.zipWith FVal.add d dc).map FVal.toS) with
            | error e => simp [min_and_max, h]
            | ok j => simp [min_and_max, h, ih]
          · cases h : applyArg ctx t (List.zipWith fdiv d dc) with
            | error e => simp [min_and_max, h]
            | ok j => simp [min_and_max, h, ih]

/-- C9: truncating the lazily-produced index sequence short-circuits.  Both
greedy helper generators satisfy a fuel-truncation law: the first `m`
yielded indices of a run with any larger fuel (respectively any longer
boundary-flag list) coincide with a run given only fuel `min m fuel`
(respectively only the first `m` flags), and a run with fuel `m` performs
exactly at most `m` iterations (one arg-extremum evaluation and one
accumulator update each).  This is the short-circuit behaviour that
`islice(generator, stop)` in `distribute_idx` relies on: consuming `stop`
items never executes the weight evaluations and accumulator updates of
later iterations and never materialises the full n-element permutation. -/
theorem lazy_truncation_short_circuits (M : List (List FVal)) (ctx : ArgCtx) :
    (∀ (fuel t : Nat) (d : List FVal) (m : Nat),
        (min_or_max M ctx fuel t d).1.take m =
          (min_or_max M ctx (min m fuel) t d).1) ∧
    (∀ (flags : List Bool) (t : Nat) (d dc : List FVal) (m : Nat),
        (min_and_max M ctx flags t d dc).1.take m =
          (min_and_max M ctx (flags.take m) t d dc).1) ∧
    (∀ (fuel t : Nat) (d : List FVal),
        (min_or_max M ctx fuel t d).1.length ≤ fuel) := by
  refine ⟨min_or_max_take M ctx, min_and_max_take M ctx, ?_⟩
  intro fuel
  induction fuel with
  | zero => intro t d; simp [min_or_max]
  | succ fuel ih =>
      intro t d
      cases h : applyArg ctx t (d.map FVal.toS) with
      | error e => simp [min_or_max, h]
      | ok i =>
          simp only [min_or_max, h, List.length_cons]
          exact Nat.succ_le_succ (ih _ _)

/-- The `cluster_size == 1` greedy loop writes only 1-D buffers: the 2-D
heap is untouched. -/
theorem min_or_max_heap_mats (dsqId : Nat) (ctx : ArgCtx) :
    ∀ (fuel t d1Id : Nat) (h : NpHeap),
      ((min_or_max_heap dsqId ctx fuel t d1Id h).2).mats = h.mats := by
  intro fuel
  induction fuel with
  | zero => intro t d1Id h; rfl
  | succ fuel ih =>
      intro t d1Id h
      cases hc : applyArg ctx t ((readVec h d1Id).map FVal.toS) with
      | error e => simp [min_or_max_heap, hc]
      | ok i => simp [min_or_max_heap, hc, ih, writeVec]

/-- The `cluster_size != 1` greedy loop writes only 1-D buffers: the 2-D
heap is untouched. -/
theorem min_and_max_heap_mats (dsqId : Nat) (ctx : ArgCtx) :
    ∀ (flags : List Bool) (t d1Id dcId : Nat) (h : NpHeap),
      ((min_and_max_heap dsqId ctx flags t d1Id dcId h).2).mats = h.mats := by
  intro flags
  induction flags with
  | nil => intro t d1Id dcId h; rfl
  | cons b bs ih =>
      intro t d1Id dcId h
      rcases Bool.eq_false_or_eq_true b with hb | hb <;> subst hb <;>
        simp only [min_and_max_heap, if_true, if_false, Bool.false_eq_true] <;>
        split <;> simp [ih, writeVec]

/-- C10: `uniform_idx` never mutates its `dist` argument.  In the
heap-instrumented model, the entry copy `np.array(dist, copy=True)`
allocates a private 2-D buffer, `np.fill_diagonal` overwrites only that
private buffer, the weight ufunc allocates a fresh result, the row copy and
all sentinel writes of both greedy loops target private 1-D buffers, so
after the generator is fully consumed the caller's matrix buffer is
elementwise unchanged. -/
theorem uniform_idx_heap_preserves_caller (h0 : NpHeap) (distId : Nat)
    (operation : String) (cluster_size : PyClusterSize) (start : Option ℤ)
    (randomness : Option ℚ) (w : ℚ → ℚ) (oracle : RngOracle)
    (hlt : distId < h0.mats.length) :
    ((uniform_idx_heap h0 distId operation cluster_size start randomness w
        oracle).2).mats.get? distId = h0.mats.get? distId := by
  have hpad : ∀ (L : List (List (List FVal))),
      (h0.mats ++ L)[distId]? = h0.mats[distId]? := fun L =>
    List.getElem?_append_left hlt
  unfold uniform_idx_heap
  simp only [allocMat, writeMat, allocVec, writeVec, readMat, readVec]
  split
  · split
    · simp [hpad]
    · split
      · simp [hpad]
      · split
        · simp [hpad]
        · split
          · simp [min_or_max_heap_mats, hpad]
          · split
            · simp [hpad]
            · simp [min_and_max_heap_mats, hpad]
  · simp [hpad]

/-- Row `k` of the masked matrix is the mask of row `k`. -/
theorem maskRows_getD : ∀ (rs : List (List ℚ)) (i k : Nat),
    (maskRows i rs).getD k [] = maskRow (i + k) 0 (rs.getD k []) := by
  intro rs
  induction rs with
  | nil => intro i k; simp [maskRows, maskRow]
  | cons r rs ih =>
      intro i k
      cases k with
      | zero => simp [maskRows]
      | succ k =>
          simp only [maskRows, List.getD_cons_succ]
          rw [ih]
          ring_nf

/-- Row `k` of the weighted matrix is the weighting of row `k`. -/
theorem weightMat_getD (w : ℚ → ℚ) : ∀ (m : List (List FVal)) (k : Nat),
    (weightMat w m).getD k [] = (m.getD k []).map (FVal.mapw w) := by
  intro m
  induction m with
  | nil => intro k; simp [weightMat]
  | cons r rs ih =>
      intro k
      cases k with
      | zero => simp [weightMat]
      | succ k => simpa [weightMat] using ih k

theorem nansumRow_nil : nansumRow [] = 0 := rfl

theorem nansumRow_cons (v : FVal) (rest : List FVal) :
    nansumRow (v :: rest) =
      (match v with | FVal.nan => 0 | FVal.val x => x) + nansumRow rest := by
  simp [nansumRow]

/-- NaN-ignoring summation of a masked, weighted row equals the direct
off-diagonal weighted sum. -/
theorem nansum_maskRow (w : ℚ → ℚ) (k : Nat) : ∀ (row : List ℚ) (j : Nat),
    nansumRow ((maskRow k j row).map (FVal.mapw w)) =
      offDiagWeightedSum w k j row := by
  intro row
  induction row with
  | nil => intro j; simp [maskRow, nansumRow, offDiagWeightedSum]
  | cons x xs ih =>
      intro j
      by_cases hkj : k = j
      · subst hkj
        simp [maskRow, FVal.mapw, nansumRow_cons, offDiagWeightedSum, ih]
      · simp [maskRow, hkj, FVal.mapw, nansumRow_cons, offDiagWeightedSum, ih]

theorem maskRows_length : ∀ (rs : List (List ℚ)) (i : Nat),
    (maskRows i rs).length = rs.length := by
  intro rs
  induction rs with
  | nil => intro i; rfl
  | cons r rs ih => intro i; simp [maskRows, ih]

theorem weightMat_length (w : ℚ → ℚ) (m : List (List FVal)) :
    (weightMat w m).length = m.length := by
  simp [weightMat]

/-- The row-sum score list computed by `uniform_idx` for the default start
equals the direct off-diagonal weighted row sums of the caller's matrix. -/
theorem rowSums_eq (w : ℚ → ℚ) (dist : List (List ℚ)) :
    (weightMat w (maskDiag dist)).map (fun row => SVal.val (nansumRow row)) =
      (List.range dist.length).map fun k => SVal.val (weightedRowSum w dist k) := by
  apply List.ext_getElem
  · simp [weightMat_length, maskDiag, maskRows_length]
  · intro i h1 h2
    have hi : i < dist.length := by
      simpa [weightMat_length, maskDiag, maskRows_length] using h1
    have hlen : i < (weightMat w (maskDiag dist)).length := by
      simpa using h1
    simp only [List.getElem_map, List.getElem_range]
    have hrow : (weightMat w (maskDiag dist))[i] =
        (weightMat w (maskDiag dist)).getD i [] :=
      (List.getD_eq_getElem _ _ hlen).symm
    rw [hrow, weightMat_getD, maskDiag, maskRows_getD]
    simp only [Nat.zero_add]
    rw [nansum_maskRow]
    rfl

/-- Bound on the arg-extremum accumulator recursion. -/
theorem argExtrAux_lt (isMin : Bool) : ∀ (ys : List SVal) (i bi : Nat)
    (bv : SVal), bi < i → argExtrAux isMin ys i bi bv < i + ys.length := by
  intro ys
  induction ys with
  | nil => intro i bi bv h; simpa [argExtrAux] using h
  | cons x rest ih =>
      intro i bi bv h
      simp only [argExtrAux, List.length_cons]
      have h1 := ih (i + 1) i x (Nat.lt_succ_self i)
      have h2 := ih (i + 1) bi bv (Nat.lt_succ_of_lt h)
      split <;> split <;> omega

/-- `nanarg` succeeds, with an in-bounds result, on a nonempty list of
finite values. -/
theorem nanarg_allval_some (isMin : Bool) (xs : List SVal) (hne : xs ≠ [])
    (hval : ∀ v ∈ xs, ∃ q, v = SVal.val q) :
    ∃ k, nanarg isMin xs = some k ∧ k < xs.length := by
  cases xs with
  | nil => exact absurd rfl hne
  | cons y ys =>
      obtain ⟨q, hq⟩ := hval y (List.mem_cons_self y ys)
      have hnotall : allNan (y :: ys) = false := by
        subst hq; simp [allNan, SVal.isnan]
      refine ⟨argExtrAux isMin (ys.map (replaceNan isMin)) 1 0
          (replaceNan isMin y), ?_, ?_⟩
      · simp [nanarg, hnotall]
      · have h2 := argExtrAux_lt isMin (ys.map (replaceNan isMin)) 1 0
          (replaceNan isMin y) Nat.one_pos
        simp only [List.length_map] at h2
        simp only [List.length_cons]
        omega

theorem svalLt_irrefl (a : SVal) : svalLt a a = false := by
  cases a <;> simp [svalLt]

theorem svalLt_trans : ∀ {a b c : SVal}, svalLt a b = true →
    svalLt b c = true → svalLt a c = true := by
  intro a b c h1 h2
  cases a <;> cases b <;> cases c <;> simp_all [svalLt] <;> linarith

theorem svalLt_asymm_total : ∀ {a b : SVal}, a ≠ SVal.nan → b ≠ SVal.nan →
    svalLt a b = false → svalLt b a = true ∨ a = b := by
  intro a b ha hb h
  cases a <;> cases b <;> simp_all [svalLt]
  exact (lt_or_eq_of_le h).imp id fun h' => h'.symm

theorem betterB_trans {m : Bool} {a b c : SVal} (h1 : betterB m a b = true)
    (h2 : betterB m b c = true) : betterB m a c = true := by
  cases m <;> simp only [betterB, if_true, if_false, Bool.false_eq_true] at *
  · exact svalLt_trans h2 h1
  · exact svalLt_trans h1 h2

theorem betterB_neg_trans {m : Bool} {x b v : SVal} (hx : x ≠ SVal.nan)
    (hb : b ≠ SVal.nan) (hv : v ≠ SVal.nan) (h1 : betterB m x b = false)
    (h2 : betterB m b v = false) : betterB m x v = false := by
  by_contra hcon
  rw [Bool.not_eq_false] at hcon
  cases m <;>
    simp only [betterB, if_true, if_false, Bool.false_eq_true] at h1 h2 hcon
  · rcases svalLt_asymm_total hb hx h1 with h' | h'
    · exact absurd (svalLt_trans hcon h') (by rw [h2]; exact Bool.false_ne_true)
    · rw [h'] at h2; exact absurd hcon (by rw [h2]; exact Bool.false_ne_true)
  · rcases svalLt_asymm_total hx hb h1 with h' | h'
    · exact absurd (svalLt_trans h' hcon) (by rw [h2]; exact Bool.false_ne_true)
    · rw [← h'] at h2; exact absurd hcon (by rw [h2]; exact Bool.false_ne_true)

/-- Specification of the first-occurrence arg-extremum accumulator: the
result is either the carried best position with the carried best value, or
a position in the scanned list; its value is never NaN (given a NaN-free
input) and no scanned value, nor the carried best, is strictly better. -/
theorem argExtrAux_spec (isMin : Bool) : ∀ (ys : List SVal) (i bi : Nat)
    (bv : SVal), (∀ y ∈ bv :: ys, y ≠ SVal.nan) →
    ∃ v, (argExtrAux isMin ys i bi bv = bi ∧ v = bv ∨
          ∃ j, j < ys.length ∧ argExtrAux isMin ys i bi bv = i + j ∧
            ys.getD j SVal.nan = v) ∧
      v ≠ SVal.nan ∧ ∀ y ∈ bv :: ys, betterB isMin y v = false := by
  intro ys
  induction ys with
  | nil =>
      intro i bi bv hnn
      refine ⟨bv, Or.inl ⟨rfl, rfl⟩, hnn bv (List.mem_cons_self bv []), ?_⟩
      intro y hy
      rcases List.mem_cons.mp hy with h | h
      · subst h; cases isMin <;> simp [betterB, svalLt_irrefl]
      · exact absurd h (List.not_mem_nil y)
  | cons x rest ih =>
      intro i bi bv hnn
      have hbv : bv ≠ SVal.nan := hnn bv (List.mem_cons_self bv (x :: rest))
      have hx : x ≠ SVal.nan := hnn x (by simp)
      have hrest : ∀ y ∈ rest, y ≠ SVal.nan := fun y hy => hnn y (by simp [hy])
      by_cases himp : betterB isMin x bv = true
      · obtain ⟨v, hcase, hvnn, hopt⟩ := ih (i + 1) i x
          (by intro y hy
              rcases List.mem_cons.mp hy with h | h
              · subst h; exact hx
              · exact hrest y h)
        have harg : argExtrAux isMin (x :: rest) i bi bv =
            argExtrAux isMin rest (i + 1) i x := by
          simp only [argExtrAux, betterB] at himp ⊢
          rw [if_pos himp]
        refine ⟨v, ?_, hvnn, ?_⟩
        · rcases hcase with ⟨hr, hv⟩ | ⟨j, hj, hr, hv⟩
          · exact Or.inr ⟨0, by simp, by rw [harg, hr]; omega,
              by simpa using hv.symm⟩
          · exact Or.inr ⟨j + 1, by simpa using hj,
              by rw [harg, hr]; omega, by simpa using hv⟩
        · intro y hy
          rcases List.mem_cons.mp hy with h | h
          · have hxv : betterB isMin x v = false := hopt x (by simp)
            subst h
            by_contra hcon
            rw [Bool.not_eq_false] at hcon
            exact absurd (betterB_trans himp hcon)
              (by rw [hxv]; exact Bool.false_ne_true)
          · exact hopt y h
      · rw [Bool.not_eq_true] at himp
        obtain ⟨v, hcase, hvnn, hopt⟩ := ih (i + 1) bi bv
          (by intro y hy
              rcases List.mem_cons.mp hy with h | h
              · subst h; exact hbv
              · exact hrest y h)
        have harg : argExtrAux isMin (x :: rest) i bi bv =
            argExtrAux isMin rest (i + 1) bi bv := by
          simp only [argExtrAux, betterB] at himp ⊢
          rw [if_neg (by rw [himp]; exact Bool.false_ne_true)]
        refine ⟨v, ?_, hvnn, ?_⟩
        · rcases hcase with ⟨hr, hv⟩ | ⟨j, hj, hr, hv⟩
          · exact Or.inl ⟨by rw [harg, hr], hv⟩
          · exact Or.inr ⟨j + 1, by simpa using hj,
              by rw [harg, hr]; omega, by simpa using hv⟩
        · intro y hy
          rcases List.mem_cons.mp hy with h | h
          · subst h
            exact hopt _ (List.mem_cons_self _ rest)
          · rcases List.mem_cons.mp h with h' | h'
            · subst h'
              exact betterB_neg_trans hx hbv hvnn himp
                (hopt _ (List.mem_cons_self _ rest))
            · exact hopt y (by simp [h'])

theorem allNan_iff (xs : List SVal) :
    allNan xs = true ↔ ∀ v ∈ xs, v.isnan = true := by
  induction xs with
  | nil => simp [allNan]
  | cons x rest ih => simp [allNan, ih]

theorem replaceNan_ne_nan (isMin : Bool) (v : SVal) :
    replaceNan isMin v ≠ SVal.nan := by
  cases v <;> cases isMin <;> simp [replaceNan]

theorem replaceNan_of_ne_nan (isMin : Bool) {v : SVal} (h : v ≠ SVal.nan) :
    replaceNan isMin v = v := by
  cases v <;> simp_all [replaceNan]

theorem isnan_eq_false_iff (v : SVal) : v.isnan = false ↔ v ≠ SVal.nan := by
  cases v <;> simp [SVal.isnan]

/-- `getD` through `map`, below the length. -/
theorem map_getD_lt (f : α → β) (l : List α) (j : Nat) (hj : j < l.length)
    (d : β) (d' : α) : (l.map f).getD j d = f (l.getD j d') := by
  rw [List.getD_eq_getElem _ _ (by simpa using hj),
    List.getD_eq_getElem _ _ hj, List.getElem_map]

/-- The losing replacement value is strictly worse than every other
non-NaN value. -/
theorem betterB_vs_worst (isMin : Bool) (a : SVal) (ha : a ≠ SVal.nan)
    (hne : a ≠ (if isMin then SVal.inf else SVal.ninf)) :
    betterB isMin a (if isMin then SVal.inf else SVal.ninf) = true := by
  cases isMin <;> cases a <;> simp_all [betterB, svalLt]

/-- On a list with a non-NaN entry and no occurrence of the losing
replacement value, the numpy nan-arg-extremum succeeds and returns an
in-bounds, non-NaN position. -/
theorem nanarg_avail (isMin : Bool) (xs : List SVal)
    (hfin : ∀ v ∈ xs, v ≠ (if isMin then SVal.inf else SVal.ninf))
    (p : Nat) (hp : p < xs.length)
    (hpnn : (xs.getD p SVal.nan).isnan = false) :
    ∃ k, nanarg isMin xs = some k ∧ k < xs.length ∧
      (xs.getD k SVal.nan).isnan = false := by
  have hpm : xs.getD p SVal.nan ∈ xs := by
    rw [List.getD_eq_getElem _ _ hp]; exact List.getElem_mem hp
  have hnotall : allNan xs = false := by
    rw [← Bool.not_eq_true, allNan_iff]
    intro hall
    rw [hall _ hpm] at hpnn
    cases hpnn
  cases xs with
  | nil => exact absurd hp (by simp)
  | cons y ys =>
      obtain ⟨v, hcase, hvnn, hopt⟩ := argExtrAux_spec isMin
        (ys.map (replaceNan isMin)) 1 0 (replaceNan isMin y)
        (by intro z hz
            rcases List.mem_cons.mp hz with h | h
            · subst h; exact replaceNan_ne_nan isMin y
            · obtain ⟨z', _, hz'⟩ := List.mem_map.mp h
              subst hz'; exact replaceNan_ne_nan isMin z')
      set r := argExtrAux isMin (ys.map (replaceNan isMin)) 1 0
        (replaceNan isMin y) with hrdef
      have hnan : nanarg isMin (y :: ys) = some r := by
        simp [nanarg, hnotall]
      have hrlt : r < (y :: ys).length := by
        have := argExtrAux_lt isMin (ys.map (replaceNan isMin)) 1 0
          (replaceNan isMin y) Nat.one_pos
        simp only [List.length_map] at this
        simp only [List.length_cons]
        omega
      have hv : v = replaceNan isMin ((y :: ys).getD r SVal.nan) := by
        rcases hcase with ⟨hr, hveq⟩ | ⟨j, hj, hr, hveq⟩
        · rw [hr]; simpa using hveq
        · simp only [List.length_map] at hj
          rw [hr, Nat.add_comm 1 j, List.getD_cons_succ]
          rw [map_getD_lt (replaceNan isMin) ys j hj SVal.nan SVal.nan] at hveq
          exact hveq.symm
      refine ⟨r, hnan, hrlt, ?_⟩
      rw [isnan_eq_false_iff]
      intro hcon
      rw [hcon] at hv
      have hvworst : v = (if isMin then SVal.inf else SVal.ninf) := by
        rw [hv]; cases isMin <;> simp [replaceNan]
      have hznn : (y :: ys).getD p SVal.nan ≠ SVal.nan :=
        (isnan_eq_false_iff _).mp hpnn
      have hzmem : replaceNan isMin ((y :: ys).getD p SVal.nan) ∈
          replaceNan isMin y :: ys.map (replaceNan isMin) := by
        have := List.mem_map_of_mem (replaceNan isMin) hpm
        simpa using this
      have hzv : betterB isMin
          (replaceNan isMin ((y :: ys).getD p SVal.nan)) v = false :=
        hopt _ hzmem
      rw [replaceNan_of_ne_nan isMin hznn, hvworst] at hzv
      have hbet := betterB_vs_worst isMin _ hznn (hfin _ hpm)
      exact absurd hbet (by rw [hzv]; exact Bool.false_ne_true)

theorem mem_availPositions (xs : List SVal) (p : Nat) :
    p ∈ availPositions xs ↔
      p < xs.length ∧ (xs.getD p SVal.nan).isnan = false := by
  simp [availPositions, List.mem_filter, List.mem_range]

/-- The (possibly randomness-wrapped) arg function returns an in-bounds
still-available (non-NaN score) position whenever one exists and the
losing replacement value does not occur among the scores. -/
theorem applyArg_avail (ctx : ArgCtx) (t : Nat) (scores : List SVal)
    (hfin : ∀ v ∈ scores, v ≠ (if ctx.isMin then SVal.inf else SVal.ninf))
    (p : Nat) (hp : p < scores.length)
    (hpnn : (scores.getD p SVal.nan).isnan = false) :
    ∃ k, applyArg ctx t scores = Except.ok k ∧ k < scores.length ∧
      (scores.getD k SVal.nan).isnan = false := by
  unfold applyArg
  cases hrnd : ctx.randomness with
  | none =>
      obtain ⟨k, hk, h1, h2⟩ := nanarg_avail ctx.isMin scores hfin p hp hpnn
      exact ⟨k, by rw [hk], h1, h2⟩
  | some thr =>
      by_cases hs : ctx.oracle.sample t < thr
      · have hpmem : p ∈ availPositions scores :=
          (mem_availPositions scores p).mpr ⟨hp, hpnn⟩
        have hnil : availPositions scores ≠ [] := List.ne_nil_of_mem hpmem
        have hne : (availPositions scores).isEmpty = false := by
          rw [List.isEmpty_eq_false]
          exact hnil
        have hlenpos : 0 < (availPositions scores).length :=
          List.length_pos.mpr hnil
        have hlt : ctx.oracle.choice t % (availPositions scores).length <
            (availPositions scores).length := Nat.mod_lt _ hlenpos
        have hmem : (availPositions scores).getD
            (ctx.oracle.choice t % (availPositions scores).length) 0 ∈
              availPositions scores := by
          rw [List.getD_eq_getElem _ _ hlt]
          exact List.getElem_mem hlt
        obtain ⟨hk1, hk2⟩ := (mem_availPositions scores _).mp hmem
        refine ⟨_, ?_, hk1, hk2⟩
        simp only [hrnd]
        rw [if_pos hs, if_neg (by rw [hne]; exact Bool.false_ne_true)]
      · obtain ⟨k, hk, h1, h2⟩ := nanarg_avail ctx.isMin scores hfin p hp hpnn
        refine ⟨k, ?_, h1, h2⟩
        simp only [hrnd]
        rw [if_neg hs, hk]

theorem maskRow_length (i : Nat) : ∀ (row : List ℚ) (j : Nat),
    (maskRow i j row).length = row.length := by
  intro row
  induction row with
  | nil => intro j; rfl
  | cons x xs ih => intro j; simp [maskRow, ih]

theorem maskRow_getD (i : Nat) : ∀ (row : List ℚ) (j0 j : Nat),
    j < row.length →
    (maskRow i j0 row).getD j FVal.nan =
      if i = j0 + j then FVal.nan else FVal.val (row.getD j 0) := by
  intro row
  induction row with
  | nil => intro j0 j hj; simp at hj
  | cons x xs ih =>
      intro j0 j hj
      cases j with
      | zero => simp [maskRow]
      | succ j =>
          simp only [maskRow, List.getD_cons_succ, List.getD_cons_succ]
          rw [ih (j0 + 1) j (by simpa using hj)]
          have : j0 + 1 + j = j0 + (j + 1) := by omega
          rw [this]

/-- The weighted masked matrix of a square rational matrix is well formed. -/
theorem WFMat_weightMat (dist : List (List ℚ)) (w : ℚ → ℚ) (n : Nat)
    (hn : dist.length = n) (hrows : ∀ row ∈ dist, row.length = n) :
    WFMat (weightMat w (maskDiag dist)) n := by
  have hrowlen : ∀ i, i < n → (dist.getD i []).length = n := by
    intro i hi
    apply hrows
    rw [List.getD_eq_getElem _ _ (by omega)]
    exact List.getElem_mem (by omega)
  have hrow : ∀ i, rowOf (weightMat w (maskDiag dist)) i =
      (maskRow i 0 (dist.getD i [])).map (FVal.mapw w) := by
    intro i
    rw [rowOf, weightMat_getD, maskDiag, maskRows_getD, Nat.zero_add]
  have hentry : ∀ i j, i < n → j < n →
      (rowOf (weightMat w (maskDiag dist)) i).getD j FVal.nan =
        if i = j then FVal.nan
        else FVal.val (w ((dist.getD i []).getD j 0)) := by
    intro i j hi hj
    rw [hrow i,
      map_getD_lt (FVal.mapw w) _ j
        (by rw [maskRow_length]; exact (hrowlen i hi) ▸ hj) FVal.nan FVal.nan,
      maskRow_getD i _ 0 j ((hrowlen i hi) ▸ hj), Nat.zero_add]
    by_cases hij : i = j <;> simp [hij, FVal.mapw]
  refine ⟨?_, ?_, ?_, ?_⟩
  · rw [weightMat_length, maskDiag, maskRows_length, hn]
  · intro i hi
    rw [hrow i, List.length_map, maskRow_length]
    exact hrowlen i hi
  · intro i hi
    rw [hentry i i hi hi, if_pos rfl]
  · intro i j hi hj hne
    rw [hentry i j hi hj, if_neg (fun h => hne h.symm)]
    rfl

/-- With a strictly positive weight the weighted masked matrix is
positive. -/
theorem PosMat_weightMat (dist : List (List ℚ)) (w : ℚ → ℚ) (n : Nat)
    (hn : dist.length = n) (hrows : ∀ row ∈ dist, row.length = n)
    (hw : ∀ x, 0 < w x) : PosMat (weightMat w (maskDiag dist)) n := by
  have hrowlen : ∀ i, i < n → (dist.getD i []).length = n := by
    intro i hi
    apply hrows
    rw [List.getD_eq_getElem _ _ (by omega)]
    exact List.getElem_mem (by omega)
  intro i j hi hj hne
  rw [rowOf, weightMat_getD, maskDiag, maskRows_getD, Nat.zero_add,
    map_getD_lt (FVal.mapw w) _ j
      (by rw [maskRow_length]; exact (hrowlen i hi) ▸ hj) FVal.nan FVal.nan,
    maskRow_getD i _ 0 j ((hrowlen i hi) ▸ hj), Nat.zero_add,
    if_neg (fun h => hne h.symm)]
  exact ⟨w ((dist.getD i []).getD j 0), rfl, hw _⟩

theorem mem_availList (d : List FVal) (p : Nat) :
    p ∈ availList d ↔ p < d.length ∧ (d.getD p FVal.nan).isnan = false := by
  simp [availList, List.mem_filter, List.mem_range]

theorem availList_nodup (d : List FVal) : (availList d).Nodup :=
  (List.nodup_range _).filter _

theorem FVal.add_isnan (a b : FVal) :
    (FVal.add a b).isnan = (a.isnan || b.isnan) := by
  cases a <;> cases b <;> rfl

theorem FVal.toS_isnan (v : FVal) : (FVal.toS v).isnan = v.isnan := by
  cases v <;> rfl

theorem FVal.toS_ne_extremes (v : FVal) (isMin : Bool) :
    FVal.toS v ≠ (if isMin then SVal.inf else SVal.ninf) := by
  cases v <;> cases isMin <;> simp [FVal.toS]

/-- When the NaN pattern of `d'` is that of `d` with position `j` added,
the available positions of `d'` are those of `d` with `j` removed. -/
theorem availList_update (d d' : List FVal) (j : Nat)
    (hlen : d'.length = d.length) (hmem : j ∈ availList d)
    (h : ∀ p, p < d.length → ((d'.getD p FVal.nan).isnan : Bool) =
      ((d.getD p FVal.nan).isnan || decide (p = j))) :
    availList d' = (availList d).erase j ∧
      (availList d').length = (availList d).length - 1 := by
  have heq : availList d' = (availList d).erase j := by
    rw [(availList_nodup d).erase_eq_filter, availList, availList, hlen,
      List.filter_filter]
    apply List.filter_congr
    intro p hp
    rw [h p (List.mem_range.mp hp)]
    by_cases hpj : p = j
    · subst hpj; simp
    · simp [hpj]
  exact ⟨heq, by rw [heq, List.length_erase_of_mem hmem]⟩

/-- NaN pattern of the shared accumulator update `d[j] = nan; d += M[j]`. -/
theorem update_isnan (M : List (List FVal)) (n : Nat) (hM : WFMat M n)
    (d : List FVal) (hd : d.length = n) (j : Nat) (hj : j < n) :
    (List.zipWith FVal.add (d.set j FVal.nan) (rowOf M j)).length = n ∧
    ∀ p, p < n →
      (((List.zipWith FVal.add (d.set j FVal.nan) (rowOf M j)).getD p
          FVal.nan).isnan : Bool) =
        ((d.getD p FVal.nan).isnan || decide (p = j)) := by
  have hrl : (rowOf M j).length = n := hM.rowLen j hj
  have hlen : (List.zipWith FVal.add (d.set j FVal.nan) (rowOf M j)).length
      = n := by
    rw [List.length_zipWith, List.length_set, hd, hrl, Nat.min_self]
  refine ⟨hlen, ?_⟩
  intro p hp
  have hps : p < (d.set j FVal.nan).length := by rw [List.length_set, hd]; exact hp
  have hpr : p < (rowOf M j).length := by rw [hrl]; exact hp
  have hpz : p < (List.zipWith FVal.add (d.set j FVal.nan) (rowOf M j)).length := by
    rw [hlen]; exact hp
  rw [List.getD_eq_getElem _ _ hpz, List.getElem_zipWith, FVal.add_isnan]
  have hdp : p < d.length := by omega
  have hset : (d.set j FVal.nan)[p] =
      if j = p then FVal.nan else d.getD p FVal.nan := by
    rw [List.getElem_set]
    by_cases hjp : j = p
    · simp [hjp]
    · rw [if_neg hjp, if_neg hjp, List.getD_eq_getElem d FVal.nan hdp]
  rw [hset]
  by_cases hjp : j = p
  · simp [hjp.symm, FVal.isnan]
  · have hrown : ((rowOf M j)[p]).isnan = false := by
      have := hM.off j p hj hp (fun h => hjp h.symm)
      rwa [List.getD_eq_getElem _ _ hpr] at this
    have hpj : (decide (p = j) : Bool) = false :=
      decide_eq_false (fun h => hjp h.symm)
    simp [hjp, hrown, hpj]

/-- Full specification of the `_min_or_max` loop: with well-formed rows and
enough available positions, it runs to completion with exactly `fuel`
pairwise-distinct yields, all of which are in-bounds positions that were
still available (non-NaN) on entry. -/
theorem min_or_max_spec (M : List (List FVal)) (n : Nat) (ctx : ArgCtx)
    (hM : WFMat M n) :
    ∀ (fuel t : Nat) (d : List FVal), d.length = n →
      fuel ≤ (availList d).length →
      (min_or_max M ctx fuel t d).2 = none ∧
      (min_or_max M ctx fuel t d).1.length = fuel ∧
      (min_or_max M ctx fuel t d).1.Nodup ∧
      ∀ x ∈ (min_or_max M ctx fuel t d).1, ∃ p : Nat, x = (p : ℤ) ∧ p < n ∧
        (d.getD p FVal.nan).isnan = false := by
  intro fuel
  induction fuel with
  | zero => intro t d hd hfu; simp [min_or_max]
  | succ fuel ih =>
      intro t d hd hfu
      have hpos : 0 < (availList d).length := by omega
      obtain ⟨p0, hp0⟩ := List.exists_mem_of_length_pos hpos
      obtain ⟨hp0lt, hp0nn⟩ := (mem_availList d p0).mp hp0
      have hslen : (d.map FVal.toS).length = n := by rw [List.length_map, hd]
      obtain ⟨k, hk, hklt, hknn⟩ := applyArg_avail ctx t (d.map FVal.toS)
        (by intro v hv
            obtain ⟨u, _, hu⟩ := List.mem_map.mp hv
            subst hu; exact FVal.toS_ne_extremes u ctx.isMin)
        p0 (by rw [hslen, ← hd]; exact hp0lt)
        (by rw [map_getD_lt FVal.toS d p0 hp0lt SVal.nan FVal.nan,
              FVal.toS_isnan]; exact hp0nn)
      have hkn : k < n := by rw [hslen] at hklt; exact hklt
      have hdknn : (d.getD k FVal.nan).isnan = false := by
        rw [map_getD_lt FVal.toS d k (by omega) SVal.nan FVal.nan,
          FVal.toS_isnan] at hknn
        exact hknn
      have hkmem : k ∈ availList d :=
        (mem_availList d k).mpr ⟨by omega, hdknn⟩
      obtain ⟨hulen, hunan⟩ := update_isnan M n hM d hd k hkn
      obtain ⟨havl, havlen⟩ := availList_update d _ k (by rw [hulen, hd]) hkmem
        (by intro p hp; exact hunan p (by omega))
      obtain ⟨ih1, ih2, ih3, ih4⟩ := ih (t + 1)
        (List.zipWith FVal.add (d.set k FVal.nan) (rowOf M k)) hulen
        (by rw [havlen]; omega)
      have hstep : min_or_max M ctx (fuel + 1) t d =
          ((k : ℤ) :: (min_or_max M ctx fuel (t + 1)
            (List.zipWith FVal.add (d.set k FVal.nan) (rowOf M k))).1,
           (min_or_max M ctx fuel (t + 1)
            (List.zipWith FVal.add (d.set k FVal.nan) (rowOf M k))).2) := by
        simp [min_or_max, hk]
      refine ⟨by rw [hstep]; exact ih1, by rw [hstep]; simp [ih2], ?_, ?_⟩
      · rw [hstep]
        refine List.nodup_cons.mpr ⟨?_, ih3⟩
        intro hmem
        obtain ⟨p, hpx, hpn, hpnn⟩ := ih4 _ hmem
        have hpk : p ≠ k := by
          intro h
          subst h
          rw [hunan p (by omega)] at hpnn
          simp at hpnn
        have : (k : ℤ) = (p : ℤ) := hpx
        exact hpk (by exact_mod_cast this.symm)
      · rw [hstep]
        intro x hx
        rcases List.mem_cons.mp hx with h | h
        · exact ⟨k, h, hkn, hdknn⟩
        · obtain ⟨p, hpx, hpn, hpnn⟩ := ih4 x h
          refine ⟨p, hpx, hpn, ?_⟩
          have := hunan p hpn
          rw [hpnn] at this
          rcases Bool.or_eq_false_iff.mp this.symm with ⟨h1, _⟩
          exact h1

theorem getD_zipWith (f : α → β → γ) (a : List α) (b : List β) (p : Nat)
    (hp : p < a.length) (hq : p < b.length) (d1 : α) (d2 : β) (d3 : γ) :
    (List.zipWith f a b).getD p d3 = f (a.getD p d1) (b.getD p d2) := by
  rw [List.getD_eq_getElem _ _ (by rw [List.length_zipWith]; omega),
    List.getElem_zipWith, List.getD_eq_getElem _ _ hp,
    List.getD_eq_getElem _ _ hq]

theorem getD_set_self (l : List α) (j : Nat) (hj : j < l.length)
    (v d : α) : (l.set j v).getD j d = v := by
  rw [List.getD_eq_getElem _ _ (by rw [List.length_set]; exact hj),
    List.getElem_set, if_pos rfl]

theorem getD_set_ne (l : List α) (j p : Nat) (hp : p < l.length)
    (hne : j ≠ p) (v d : α) : (l.set j v).getD p d = l.getD p d := by
  rw [List.getD_eq_getElem _ _ (by rw [List.length_set]; exact hp),
    List.getElem_set, if_neg hne, List.getD_eq_getElem _ _ hp]

/-- Full specification of the `_min_and_max` loop under a strictly positive
weight: with well-formed positive rows and enough available positions it
runs to completion with exactly one pairwise-distinct in-bounds yield per
boundary flag, all of which were still available on entry. -/
theorem min_and_max_spec (M : List (List FVal)) (n : Nat) (ctx : ArgCtx)
    (hM : WFMat M n) (hpos : PosMat M n) :
    ∀ (flags : List Bool) (t : Nat) (d dc : List FVal), DCInv n d dc →
      flags.length ≤ (availList d).length →
      (min_and_max M ctx flags t d dc).2 = none ∧
      (min_and_max M ctx flags t d dc).1.length = flags.length ∧
      (min_and_max M ctx flags t d dc).1.Nodup ∧
      ∀ x ∈ (min_and_max M ctx flags t d dc).1, ∃ p : Nat, x = (p : ℤ) ∧
        p < n ∧ (d.getD p FVal.nan).isnan = false := by
  intro flags
  induction flags with
  | nil => intro t d dc _ _; simp [min_and_max]
  | cons b bs ih =>
      intro t d dc hinv hfu
      obtain ⟨hd, hdc, hsub, hposdc⟩ := hinv
      simp only [List.length_cons] at hfu
      have hpos0 : 0 < (availList d).length := by omega
      obtain ⟨p0, hp0⟩ := List.exists_mem_of_length_pos hpos0
      obtain ⟨hp0lt, hp0nn⟩ := (mem_availList d p0).mp hp0
      have hp0n : p0 < n := by omega
      rcases Bool.eq_false_or_eq_true b with hb | hb <;> subst hb
      · -- boundary step: fold, reset, score is the folded accumulator
        have hd2len : (List.zipWith FVal.add d dc).length = n := by
          rw [List.length_zipWith]; omega
        have hd2nan : ∀ p, p < n →
            ((List.zipWith FVal.add d dc).getD p FVal.nan).isnan =
              (d.getD p FVal.nan).isnan := by
          intro p hp
          rw [getD_zipWith FVal.add d dc p (by omega) (by omega) FVal.nan
            FVal.nan FVal.nan, FVal.add_isnan]
          cases hdcp : (dc.getD p FVal.nan).isnan
          · simp
          · rw [hsub p hp hdcp]
            simp
        have hslen : ((List.zipWith FVal.add d dc).map FVal.toS).length
            = n := by
          rw [List.length_map, hd2len]
        obtain ⟨j, hj, hjlt, hjnn⟩ := applyArg_avail ctx t
          ((List.zipWith FVal.add d dc).map FVal.toS)
          (by intro v hv
              obtain ⟨u, _, hu⟩ := List.mem_map.mp hv
              subst hu; exact FVal.toS_ne_extremes u ctx.isMin)
          p0 (by omega)
          (by rw [map_getD_lt FVal.toS _ p0 (by omega) SVal.nan FVal.nan,
                FVal.toS_isnan, hd2nan p0 hp0n]; exact hp0nn)
        have hjn : j < n := by omega
        have hd2jnn : ((List.zipWith FVal.add d dc).getD j FVal.nan).isnan
            = false := by
          rw [map_getD_lt FVal.toS _ j (by omega) SVal.nan FVal.nan,
            FVal.toS_isnan] at hjnn
          exact hjnn
        have hdjnn : (d.getD j FVal.nan).isnan = false := by
          rw [hd2nan j hjn] at hd2jnn; exact hd2jnn
        have hjmem : j ∈ availList d :=
          (mem_availList d j).mpr ⟨by omega, hdjnn⟩
        have hd3len : ((List.zipWith FVal.add d dc).set j FVal.nan).length
            = n := by
          rw [List.length_set, hd2len]
        have hd3nan : ∀ p, p < n →
            ((((List.zipWith FVal.add d dc).set j FVal.nan).getD p
                FVal.nan).isnan : Bool) =
              ((d.getD p FVal.nan).isnan || decide (p = j)) := by
          intro p hp
          by_cases hpj : p = j
          · subst hpj
            rw [getD_set_self _ p (by omega) FVal.nan FVal.nan]
            simp [FVal.isnan]
          · rw [getD_set_ne _ j p (by omega) (fun h => hpj h.symm),
              hd2nan p hp]
            simp [hpj]
        obtain ⟨havl, havlen⟩ := availList_update d
          ((List.zipWith FVal.add d dc).set j FVal.nan) j
          (by rw [hd3len, hd]) hjmem (fun p hp => hd3nan p (by omega))
        have hdc0len : (dc.map fun _ => FVal.val 0).length = n := by
          rw [List.length_map]; exact hdc
        have hdc3len : (List.zipWith FVal.add (dc.map fun _ => FVal.val 0)
            (rowOf M j)).length = n := by
          rw [List.length_zipWith, hdc0len, hM.rowLen j hjn, Nat.min_self]
        have hdc3 : ∀ p, p < n →
            (List.zipWith FVal.add (dc.map fun _ => FVal.val 0)
              (rowOf M j)).getD p FVal.nan =
            FVal.add (FVal.val 0) ((rowOf M j).getD p FVal.nan) := by
          intro p hp
          rw [getD_zipWith FVal.add _ (rowOf M j) p (by omega)
            (by rw [hM.rowLen j hjn]; omega) FVal.nan FVal.nan FVal.nan,
            map_getD_lt (fun _ => FVal.val 0) dc p (by omega) FVal.nan
              FVal.nan]
        have hinv3 : DCInv n ((List.zipWith FVal.add d dc).set j FVal.nan)
            (List.zipWith FVal.add (dc.map fun _ => FVal.val 0)
              (rowOf M j)) := by
          refine ⟨hd3len, hdc3len, ?_, ?_⟩
          · intro p hp hnan
            rw [hdc3 p hp, FVal.add_isnan] at hnan
            simp only [show (FVal.val (0 : ℚ)).isnan = false from rfl,
              Bool.false_or] at hnan
            have hpj : p = j := by
              by_contra hne
              have hoff := hM.off j p hjn hp hne
              rw [hoff] at hnan
              exact absurd hnan Bool.false_ne_true
            subst hpj
            rw [hd3nan p hp]
            simp
          · intro p q hp heq
            rw [hdc3 p hp] at heq
            by_cases hpj : p = j
            · subst hpj
              rw [hM.diag p hjn] at heq
              simp [FVal.add] at heq
            · obtain ⟨qr, hqr, hqrpos⟩ := hpos j p hjn hp hpj
              rw [hqr] at heq
              simp only [FVal.add, FVal.val.injEq] at heq
              subst heq
              linarith
        obtain ⟨ih1, ih2, ih3, ih4⟩ := ih (t + 1)
          ((List.zipWith FVal.add d dc).set j FVal.nan)
          (List.zipWith FVal.add (dc.map fun _ => FVal.val 0) (rowOf M j))
          hinv3 (by rw [havlen]; omega)
        have hstep : min_and_max M ctx (true :: bs) t d dc =
            ((j : ℤ) :: (min_and_max M ctx bs (t + 1)
              ((List.zipWith FVal.add d dc).set j FVal.nan)
              (List.zipWith FVal.add (dc.map fun _ => FVal.val 0)
                (rowOf M j))).1,
             (min_and_max M ctx bs (t + 1)
              ((List.zipWith FVal.add d dc).set j FVal.nan)
              (List.zipWith FVal.add (dc.map fun _ => FVal.val 0)
                (rowOf M j))).2) := by
          simp [min_and_max, hj]
        refine ⟨by rw [hstep]; exact ih1,
          by rw [hstep]; simp only [List.length_cons, ih2], ?_, ?_⟩
        · rw [hstep]
          refine List.nodup_cons.mpr ⟨?_, ih3⟩
          intro hmem
          obtain ⟨p, hpx, hpn, hpnn⟩ := ih4 _ hmem
          have hpj : p ≠ j := by
            intro h
            subst h
            rw [hd3nan p hpn] at hpnn
            simp at hpnn
          exact hpj (by exact_mod_cast hpx.symm)
        · rw [hstep]
          intro x hx
          rcases List.mem_cons.mp hx with h | h
          · exact ⟨j, h, hjn, hdjnn⟩
          · obtain ⟨p, hpx, hpn, hpnn⟩ := ih4 x h
            refine ⟨p, hpx, hpn, ?_⟩
            have hiso := hd3nan p hpn
            rw [hpnn] at hiso
            rcases Bool.or_eq_false_iff.mp hiso.symm with ⟨h1, _⟩
            exact h1
      · -- growth step: score is the elementwise ratio d / dc
        have hsl : (List.zipWith fdiv d dc).length = n := by
          rw [List.length_zipWith]; omega
        have hscore : ∀ p, p < n →
            ((List.zipWith fdiv d dc).getD p SVal.nan).isnan =
                (d.getD p FVal.nan).isnan ∧
              (List.zipWith fdiv d dc).getD p SVal.nan ≠ SVal.inf ∧
              (List.zipWith fdiv d dc).getD p SVal.nan ≠ SVal.ninf := by
          intro p hp
          rw [getD_zipWith fdiv d dc p (by omega) (by omega) FVal.nan
            FVal.nan SVal.nan]
          cases hdp : d.getD p FVal.nan with
          | nan => simp [fdiv, SVal.isnan, FVal.isnan]
          | val a =>
              cases hdcp : dc.getD p FVal.nan with
              | nan =>
                  have hcon := hsub p hp (by rw [hdcp]; rfl)
                  rw [hdp] at hcon
                  exact absurd hcon (by simp [FVal.isnan])
              | val qb =>
                  have hqb : 0 < qb := hposdc p qb hp hdcp
                  simp [fdiv, hqb.ne', SVal.isnan, FVal.isnan]
        obtain ⟨j, hj, hjlt, hjnn⟩ := applyArg_avail ctx t
          (List.zipWith fdiv d dc)
          (by intro v hv
              obtain ⟨p, hp, hveq⟩ := List.mem_iff_getElem.mp hv
              have hpn : p < n := by omega
              obtain ⟨_, hi, hni⟩ := (hscore p hpn)
              rw [List.getD_eq_getElem _ _ hp] at hi hni
              rw [← hveq]
              cases ctx.isMin
              · simpa using hni
              · simpa using hi)
          p0 (by omega)
          (by rw [(hscore p0 hp0n).1]; exact hp0nn)
        have hjn : j < n := by omega
        have hdjnn : (d.getD j FVal.nan).isnan = false := by
          rw [(hscore j hjn).1] at hjnn; exact hjnn
        have hjmem : j ∈ availList d :=
          (mem_availList d j).mpr ⟨by omega, hdjnn⟩
        have hd3len : (d.set j FVal.nan).length = n := by
          rw [List.length_set]; exact hd
        have hd3nan : ∀ p, p < n →
            (((d.set j FVal.nan).getD p FVal.nan).isnan : Bool) =
              ((d.getD p FVal.nan).isnan || decide (p = j)) := by
          intro p hp
          by_cases hpj : p = j
          · subst hpj
            rw [getD_set_self d p (by omega) FVal.nan FVal.nan]
            simp [FVal.isnan]
          · rw [getD_set_ne d j p (by omega) (fun h => hpj h.symm)]
            simp [hpj]
        obtain ⟨havl, havlen⟩ := availList_update d (d.set j FVal.nan) j
          (by rw [hd3len, hd]) hjmem (fun p hp => hd3nan p (by omega))
        have hdc3len : (List.zipWith FVal.add dc (rowOf M j)).length = n := by
          rw [List.length_zipWith, hdc, hM.rowLen j hjn, Nat.min_self]
        have hinv3 : DCInv n (d.set j FVal.nan)
            (List.zipWith FVal.add dc (rowOf M j)) := by
          refine ⟨hd3len, hdc3len, ?_, ?_⟩
          · intro p hp hnan
            rw [getD_zipWith FVal.add dc (rowOf M j) p (by omega)
              (by rw [hM.rowLen j hjn]; omega) FVal.nan FVal.nan FVal.nan,
              FVal.add_isnan] at hnan
            rcases Bool.or_eq_true_iff.mp hnan with h1 | h1
            · have hdn := hsub p hp h1
              rw [hd3nan p hp, hdn]
              rfl
            · have hpj : p = j := by
                by_contra hne
                have hoff := hM.off j p hjn hp hne
                rw [hoff] at h1
                exact absurd h1 Bool.false_ne_true
              subst hpj
              rw [hd3nan p hp]
              simp
          · intro p q hp heq
            rw [getD_zipWith FVal.add dc (rowOf M j) p (by omega)
              (by rw [hM.rowLen j hjn]; omega) FVal.nan FVal.nan
              FVal.nan] at heq
            cases hdcp : dc.getD p FVal.nan with
            | nan => rw [hdcp] at heq; simp [FVal.add] at heq
            | val qb =>
                have hqb := hposdc p qb hp hdcp
                rw [hdcp] at heq
                by_cases hpj : p = j
                · subst hpj
                  rw [hM.diag p hjn] at heq
                  simp [FVal.add] at heq
                · obtain ⟨qr, hqr, hqrpos⟩ := hpos j p hjn hp hpj
                  rw [hqr] at heq
                  simp only [FVal.add, FVal.val.injEq] at heq
                  subst heq
                  linarith
        obtain ⟨ih1, ih2, ih3, ih4⟩ := ih (t + 1) (d.set j FVal.nan)
          (List.zipWith FVal.add dc (rowOf M j)) hinv3
          (by rw [havlen]; omega)
        have hstep : min_and_max M ctx (false :: bs) t d dc =
            ((j : ℤ) :: (min_and_max M ctx bs (t + 1) (d.set j FVal.nan)
              (List.zipWith FVal.add dc (rowOf M j))).1,
             (min_and_max M ctx bs (t + 1) (d.set j FVal.nan)
              (List.zipWith FVal.add dc (rowOf M j))).2) := by
          simp [min_and_max, hj]
        refine ⟨by rw [hstep]; exact ih1,
          by rw [hstep]; simp only [List.length_cons, ih2], ?_, ?_⟩
        · rw [hstep]
          refine List.nodup_cons.mpr ⟨?_, ih3⟩
          intro hmem
          obtain ⟨p, hpx, hpn, hpnn⟩ := ih4 _ hmem
          have hpj : p ≠ j := by
            intro h
            subst h
            rw [hd3nan p hpn] at hpnn
            simp at hpnn
          exact hpj (by exact_mod_cast hpx.symm)
        · rw [hstep]
          intro x hx
          rcases List.mem_cons.mp hx with h | h
          · exact ⟨j, h, hjn, hdjnn⟩
          · obtain ⟨p, hpx, hpn, hpnn⟩ := ih4 x h
            refine ⟨p, hpx, hpn, ?_⟩
            have hiso := hd3nan p hpn
            rw [hpnn] at hiso
            rcases Bool.or_eq_false_iff.mp hiso.symm with ⟨h1, _⟩
            exact h1

theorem sliceStepFlags_length (n : Nat) (k : ℤ) :
    (sliceStepFlags n k).length = n := by
  simp [sliceStepFlags]

theorem flagsIter_length (n : Nat) (l : List ℤ) :
    (flagsIter n l).length = n := by
  simp [flagsIter]

/-- A vector whose only NaN is at position `k < n` has `n - 1` available
positions. -/
theorem availList_single (d0 : List FVal) (n k : Nat) (hd0len : d0.length = n)
    (hk : k < n)
    (hd0nan : ∀ p, p < n → ((d0.getD p FVal.nan).isnan : Bool) =
      decide (p = k)) :
    (availList d0).length = n - 1 := by
  have heq : availList d0 = (List.range n).erase k := by
    rw [(List.nodup_range n).erase_eq_filter, availList, hd0len]
    apply List.filter_congr
    intro p hp
    rw [hd0nan p (List.mem_range.mp hp)]
    by_cases h : p = k <;> simp [h]
  rw [heq, List.length_erase_of_mem (List.mem_range.mpr hk),
    List.length_range]

/-- Specification of the tail of `uniform_idx` after the start was yielded:
from an accumulator whose single NaN marks the start position, the selected
branch runs to completion, yielding `n - 1` pairwise-distinct in-bounds
positions, none of which is the start position. -/
theorem uniform_tail_spec (M : List (List FVal)) (n : Nat) (ctx : ArgCtx)
    (cs : PyClusterSize) (hM : WFMat M n) (hcs : validCS cs)
    (hw : cs.eqOne = true ∨ PosMat M n)
    (d0 : List FVal) (k : Nat) (hk : k < n) (hd0len : d0.length = n)
    (hd0nan : ∀ p, p < n → ((d0.getD p FVal.nan).isnan : Bool) =
      decide (p = k))
    (hd0pos : cs.eqOne = true ∨ ∀ p q, p < n →
      d0.getD p FVal.nan = FVal.val q → 0 < q) :
    (if cs.eqOne then min_or_max M ctx (n - 1) 0 d0
     else
       match boolFlags n cs with
       | Except.error e => ([], some e)
       | Except.ok flags => min_and_max M ctx (flags.drop 1) 0 d0 d0).2
        = none ∧
    (if cs.eqOne then min_or_max M ctx (n - 1) 0 d0
     else
       match boolFlags n cs with
       | Except.error e => ([], some e)
       | Except.ok flags => min_and_max M ctx (flags.drop 1) 0 d0 d0).1.length
        = n - 1 ∧
    (if cs.eqOne then min_or_max M ctx (n - 1) 0 d0
     else
       match boolFlags n cs with
       | Except.error e => ([], some e)
       | Except.ok flags => min_and_max M ctx (flags.drop 1) 0 d0 d0).1.Nodup ∧
    ∀ x ∈ (if cs.eqOne then min_or_max M ctx (n - 1) 0 d0
     else
       match boolFlags n cs with
       | Except.error e => ([], some e)
       | Except.ok flags => min_and_max M ctx (flags.drop 1) 0 d0 d0).1,
      ∃ p : Nat, x = (p : ℤ) ∧ p < n ∧ p ≠ k := by
  have havail : (availList d0).length = n - 1 :=
    availList_single d0 n k hd0len hk hd0nan
  have hmem_ne : ∀ (res : List ℤ × Option PyErr),
      (∀ x ∈ res.1, ∃ p : Nat, x = (p : ℤ) ∧ p < n ∧
        (d0.getD p FVal.nan).isnan = false) →
      ∀ x ∈ res.1, ∃ p : Nat, x = (p : ℤ) ∧ p < n ∧ p ≠ k := by
    intro res hres x hx
    obtain ⟨p, hpx, hpn, hpnn⟩ := hres x hx
    refine ⟨p, hpx, hpn, ?_⟩
    intro h
    rw [hd0nan p hpn] at hpnn
    simp [h] at hpnn
  by_cases hone : cs.eqOne
  · rw [if_pos hone]
    obtain ⟨h1, h2, h3, h4⟩ := min_or_max_spec M n ctx hM (n - 1) 0 d0
      hd0len (by omega)
    exact ⟨h1, h2, h3, hmem_ne _ h4⟩
  · have hPos : PosMat M n := by
      rcases hw with h | h
      · exact absurd h hone
      · exact h
    have hd0p : ∀ p q, p < n → d0.getD p FVal.nan = FVal.val q → 0 < q := by
      rcases hd0pos with h | h
      · exact absurd h hone
      · exact h
    have hinv : DCInv n d0 d0 :=
      ⟨hd0len, hd0len, fun p _ h => h, fun p q hp h => hd0p p q hp h⟩
    rw [if_neg hone]
    cases cs with
    | float q =>
        have : PyClusterSize.eqOne (PyClusterSize.float q) = true := by
          simp only [validCS] at hcs
          simp [PyClusterSize.eqOne, hcs]
        exact absurd this hone
    | int k' =>
        have hne0 : k' ≠ 0 := by
          simp only [validCS] at hcs
          omega
        have hflags : boolFlags n (PyClusterSize.int k') =
            Except.ok (sliceStepFlags n k') := by
          simp [boolFlags, hne0]
        rw [hflags]
        obtain ⟨h1, h2, h3, h4⟩ := min_and_max_spec M n ctx hM hPos
          ((sliceStepFlags n k').drop 1) 0 d0 d0 hinv
          (by rw [List.length_drop, sliceStepFlags_length]; omega)
        refine ⟨h1, ?_, h3, hmem_ne _ h4⟩
        rw [h2, List.length_drop, sliceStepFlags_length]
    | iter l =>
        have hflags : boolFlags n (PyClusterSize.iter l) =
            Except.ok (flagsIter n l) := rfl
        rw [hflags]
        obtain ⟨h1, h2, h3, h4⟩ := min_and_max_spec M n ctx hM hPos
          ((flagsIter n l).drop 1) 0 d0 d0 hinv
          (by rw [List.length_drop, flagsIter_length]; omega)
        refine ⟨h1, ?_, h3, hmem_ne _ h4⟩
        rw [h2, List.length_drop, flagsIter_length]

/-- Head of a successful fancy-index result. -/
theorem pyGetEach_cons_head (xs : List α) (a : ℤ) (ps : List ℤ)
    (ys : List α) (h : pyGetEach xs (a :: ps) = some ys) :
    ys.head? = pyGet xs a := by
  unfold pyGetEach at h
  cases hg : pyGet xs a <;> rw [hg] at h
  · exact absurd h (by simp)
  · cases hr : pyGetEach xs ps <;> rw [hr] at h
    · exact absurd h (by simp)
    · simp only [Option.some.injEq] at h
      subst h
      rfl

/-- C2: with no user-supplied start, the first index yielded by
`uniform_idx` is the arg-extremum over rows `k` of the NaN-ignoring sum of
the weight-transformed distance-matrix row `k` with the diagonal masked —
the argmin for `operation = "min"` (mode `uniform`) and the argmax for
`operation = "max"` (mode `cluster`), with numpy first-occurrence
tie-breaking; if an in-bounds integer start is supplied, the first yielded
index equals `start`. -/
theorem uniform_idx_first_index
    (dist : List (List ℚ)) (operation : String) (cs : PyClusterSize)
    (rnd : Option ℚ) (w : ℚ → ℚ) (oracle : RngOracle)
    (hop : operation = "min" ∨ operation = "max")
    (hrnd : rnd = none ∨ ∃ r, rnd = some r ∧ 0 ≤ r ∧ r ≤ 1) :
    (dist ≠ [] →
      ∃ k, nanarg (operation == "min")
            ((List.range dist.length).map fun j =>
              SVal.val (weightedRowSum w dist j)) = some k ∧
        (uniform_idx dist operation cs none rnd w oracle).1.head? =
          some (k : ℤ)) ∧
    (∀ s : ℤ, 0 ≤ s → s < (dist.length : ℤ) →
      (uniform_idx dist operation cs (some s) rnd w oracle).1.head? =
        some s) := by
  have hguard : (operation == "min" || operation == "max") = true := by
    rcases hop with h | h <;> simp [h]
  constructor
  · intro hne
    have hlen : 0 < dist.length := List.length_pos.mpr hne
    obtain ⟨k, hk, hkb⟩ := nanarg_allval_some (operation == "min")
        ((List.range dist.length).map fun j =>
          SVal.val (weightedRowSum w dist j))
        (by simp only [ne_eq, List.map_eq_nil_iff, List.range_eq_nil]; omega)
        (by intro v hv; simp only [List.mem_map] at hv
            obtain ⟨j, _, hj⟩ := hv; exact ⟨_, hj.symm⟩)
    have hkb' : k < dist.length := by simpa using hkb
    refine ⟨k, hk, ?_⟩
    have hsums : nanarg (operation == "min")
        ((weightMat w (maskDiag dist)).map fun row =>
          SVal.val (nansumRow row)) = some k := by
      rw [rowSums_eq]; exact hk
    have hcanon : pyCanon dist.length (k : ℤ) = some k := by
      simp only [pyCanon]
      rw [if_pos ⟨Int.ofNat_nonneg k, by exact_mod_cast hkb'⟩]
      simp
    rcases hrnd with hr | ⟨r, hr, hr0, hr1⟩
    · subst hr; simp [uniform_idx, hguard, hsums, hcanon]
    · subst hr; simp [uniform_idx, hguard, hsums, hcanon, hr0, hr1]
  · intro s hs0 hsn
    have hcanon : pyCanon dist.length s = some s.toNat := by
      simp only [pyCanon]
      rw [if_pos ⟨hs0, hsn⟩]
    rcases hrnd with hr | ⟨r, hr, hr0, hr1⟩
    · subst hr; simp [uniform_idx, hguard, hcanon]
    · subst hr; simp [uniform_idx, hguard, hcanon, hr0, hr1]

/-- Witness for C2 at a concrete input: the supplied in-bounds start `1` is
the first yielded index. -/
theorem uniform_idx_first_index_witness :
    (uniform_idx [[0, 1], [1, 0]] "min" (PyClusterSize.int 1) (some 1) none
        (fun x => x) oracle0).1.head? = some 1 :=
  (uniform_idx_first_index [[0, 1], [1, 0]] "min" (PyClusterSize.int 1) none
    (fun x => x) oracle0 (Or.inl rfl) (Or.inl rfl)).2 1 (by decide) (by decide)

/-- Witness for C10 at a concrete heap: one caller-owned 2-by-2 matrix at
buffer id 0. -/
theorem uniform_idx_heap_preserves_caller_witness :
    0 < (NpHeap.mk [[[FVal.val 0, FVal.val 1], [FVal.val 1, FVal.val 0]]]
          []).mats.length ∧
    ((uniform_idx_heap
        (NpHeap.mk [[[FVal.val 0, FVal.val 1], [FVal.val 1, FVal.val 0]]] [])
        0 "min" (PyClusterSize.int 1) none none (fun x => x)
        oracle0).2).mats.get? 0 =
      (NpHeap.mk [[[FVal.val 0, FVal.val 1], [FVal.val 1, FVal.val 0]]]
        []).mats.get? 0 :=
  ⟨by decide,
   uniform_idx_heap_preserves_caller
     (NpHeap.mk [[[FVal.val 0, FVal.val 1], [FVal.val 1, FVal.val 0]]] []) 0
     "min" (PyClusterSize.int 1) none none (fun x => x) oracle0 (by decide)⟩

/-- C3 counterexample: on the symmetric matrix `cexDist33` with the
monotone weight `x - 5`, operation `max` (cluster mode), positive cluster
sizes `[1, 2]`, in-bounds start `0` and randomness probability `0 ∈ [0,1]`,
the yielded indices are NOT pairwise distinct: the growth-step score vector
becomes all `-inf`/NaN (a division `-6 / 0 = -inf` with every other entry
NaN), and `numpy.nanargmax` — which replaces NaN by `-inf` before the
search — then returns position 0, an already-selected index, so the
generator yields `0` twice. -/
theorem uniform_idx_duplicate_yield_cex :
    uniform_idx cexDist33 "max" (PyClusterSize.iter [1, 2]) (some 0) (some 0)
        (fun x => x - 5) oracle0 = ([0, 1, 0], none) ∧
      ¬ ([0, 1, 0] : List ℤ).Nodup := by
  refine ⟨?_, by decide⟩
  have hW : weightMat (fun x => x - 5)
        (maskDiag [[0, 4, 2], [4, 0, 5], [2, 5, 0]]) =
      [[FVal.nan, FVal.val (-1), FVal.val (-3)],
       [FVal.val (-1), FVal.nan, FVal.val 0],
       [FVal.val (-3), FVal.val 0, FVal.nan]] := by
    norm_num [weightMat, maskDiag, maskRows, maskRow, FVal.mapw]
  have hFlags : boolFlags 3 (PyClusterSize.iter [1, 2]) =
      Except.ok [false, true, false] := by
    norm_num [boolFlags, flagsIter, parse_cluster_size,
      cycle_accumulate_takewhile, pyCanon]
    decide
  have hLoop : min_and_max
        [[FVal.nan, FVal.val (-1), FVal.val (-3)],
         [FVal.val (-1), FVal.nan, FVal.val 0],
         [FVal.val (-3), FVal.val 0, FVal.nan]]
        ⟨false, some 0, oracle0⟩ [true, false] 0
        [FVal.nan, FVal.val (-1), FVal.val (-3)]
        [FVal.nan, FVal.val (-1), FVal.val (-3)] = ([1, 0], none) := by
    norm_num [min_and_max, applyArg, nanarg, allNan, replaceNan, argExtrAux,
      svalLt, rowOf, FVal.toS, SVal.isnan, FVal.isnan, FVal.add, fdiv,
      oracle0]
  norm_num [uniform_idx, hW, hFlags, hLoop, cexDist33, nansumRow, nanarg,
    allNan, replaceNan, argExtrAux, svalLt, pyCanon, pySet, rowOf, FVal.toS,
    SVal.isnan, FVal.isnan, PyClusterSize.eqOne,
    show (("max" == "min") : Bool) = false from by decide]

theorem pyCanon_of_nonneg (n : Nat) (s : ℤ) (h0 : 0 ≤ s)
    (h1 : s < (n : ℤ)) : pyCanon n s = some s.toNat := by
  rw [pyCanon, if_pos ⟨h0, h1⟩]

theorem pyCanon_natCast (n k : Nat) (hk : k < n) :
    pyCanon n (k : ℤ) = some k := by
  rw [pyCanon_of_nonneg n (k : ℤ) (Int.natCast_nonneg k)
    (by exact_mod_cast hk)]
  simp

/-- Full run specification of `uniform_idx`: for a square matrix, valid
operation, start, randomness and cluster size, and either a unit cluster
size or a strictly positive weight, the generator runs to completion with
no error, yielding exactly `n` pairwise-distinct in-bounds positions. -/
theorem uniform_idx_run_spec (dist : List (List ℚ)) (operation : String)
    (cs : PyClusterSize) (st : Option ℤ) (rnd : Option ℚ) (w : ℚ → ℚ)
    (oracle : RngOracle) (n : Nat)
    (hn : dist.length = n) (hrows : ∀ row ∈ dist, row.length = n)
    (hpos : 1 ≤ n)
    (hop : operation = "min" ∨ operation = "max")
    (hst : st = none ∨ ∃ s : ℤ, st = some s ∧ 0 ≤ s ∧ s < (n : ℤ))
    (hrnd : rnd = none ∨ ∃ r : ℚ, rnd = some r ∧ 0 ≤ r ∧ r ≤ 1)
    (hcs : validCS cs)
    (hw : cs.eqOne = true ∨ ∀ x, 0 < w x) :
    (uniform_idx dist operation cs st rnd w oracle).2 = none ∧
    (uniform_idx dist operation cs st rnd w oracle).1.length = n ∧
    (uniform_idx dist operation cs st rnd w oracle).1.Nodup ∧
    ∀ x ∈ (uniform_idx dist operation cs st rnd w oracle).1,
      ∃ p : Nat, x = (p : ℤ) ∧ p < n := by
  subst hn
  have hguard : ((operation == "min" || operation == "max") : Bool)
      = true := by
    rcases hop with h | h <;> simp [h]
  set M := weightMat w (maskDiag dist) with hMdef
  have hWF : WFMat M dist.length := WFMat_weightMat dist w _ rfl hrows
  obtain ⟨s, k, hs_eq, hk, hks, hstart0⟩ :
      ∃ (s : ℤ) (k : Nat), pyCanon dist.length s = some k ∧
        k < dist.length ∧ (k : ℤ) = s ∧
        (match st with
         | some s' => Except.ok s'
         | none =>
             match nanarg (operation == "min")
                 (M.map fun row => SVal.val (nansumRow row)) with
             | none => Except.error PyErr.emptyArgSequence
             | some k' => Except.ok ((k' : ℤ))) = Except.ok s := by
    rcases hst with hstn | ⟨s, hsteq, hs0, hs1⟩
    · subst hstn
      have hlen : (M.map fun row => SVal.val (nansumRow row)).length
          = dist.length := by rw [List.length_map, hWF.len]
      obtain ⟨k0, hna, hk0⟩ := nanarg_allval_some (operation == "min")
        (M.map fun row => SVal.val (nansumRow row))
        (by
          intro hnil
          rw [hnil] at hlen
          simp at hlen
          omega)
        (by
          intro v hv
          obtain ⟨row, _, hrow⟩ := List.mem_map.mp hv
          exact ⟨nansumRow row, hrow.symm⟩)
      rw [hlen] at hk0
      exact ⟨(k0 : ℤ), k0, pyCanon_natCast _ _ hk0, hk0, rfl, by rw [hna]⟩
    · subst hsteq
      have hks : ((s.toNat : ℤ)) = s := Int.toNat_of_nonneg hs0
      refine ⟨s, s.toNat, pyCanon_of_nonneg _ _ hs0 hs1, ?_, hks, rfl⟩
      omega
  obtain ⟨rv, hrndeq⟩ :
      ∃ rv : Option ℚ,
        (match rnd with
         | none => Except.ok (none : Option ℚ)
         | some r =>
             if 0 ≤ r ∧ r ≤ 1 then Except.ok (some r)
             else Except.error PyErr.invalidRandomness) = Except.ok rv := by
    rcases hrnd with h | ⟨r, hr, h0, h1⟩
    · exact ⟨none, by rw [h]⟩
    · exact ⟨some r, by rw [hr]; exact if_pos ⟨h0, h1⟩⟩
  have hrowlen : (rowOf M k).length = dist.length := hWF.rowLen k hk
  set d0 := pySet (rowOf M k) s FVal.nan with hd0def
  have hd0set : d0 = (rowOf M k).set k FVal.nan := by
    rw [hd0def]
    simp only [pySet]
    rw [hrowlen, hs_eq]
  have hd0len : d0.length = dist.length := by
    rw [hd0set, List.length_set, hrowlen]
  have hd0nan : ∀ p, p < dist.length →
      ((d0.getD p FVal.nan).isnan : Bool) = decide (p = k) := by
    intro p hp
    by_cases hpk : p = k
    · subst hpk
      rw [hd0set, getD_set_self _ _ (by rw [hrowlen]; exact hp)]
      simp [show FVal.nan.isnan = true from rfl]
    · rw [hd0set,
        getD_set_ne _ _ _ (by rw [hrowlen]; exact hp) (fun h => hpk h.symm),
        hWF.off k p hk hp hpk]
      simp [hpk]
  have hPosM : cs.eqOne = true ∨ PosMat M dist.length := by
    rcases hw with h | h
    · exact Or.inl h
    · exact Or.inr (hMdef ▸ PosMat_weightMat dist w _ rfl hrows h)
  have hd0pos : cs.eqOne = true ∨ ∀ p q, p < dist.length →
      d0.getD p FVal.nan = FVal.val q → 0 < q := by
    rcases hPosM with h | h
    · exact Or.inl h
    · refine Or.inr ?_
      intro p q hp hq
      by_cases hpk : p = k
      · subst hpk
        rw [hd0set, getD_set_self _ _ (by rw [hrowlen]; exact hp)] at hq
        cases hq
      · rw [hd0set, getD_set_ne _ _ _ (by rw [hrowlen]; exact hp)
          (fun hh => hpk hh.symm)] at hq
        obtain ⟨q', hq', hq'pos⟩ := h k p hk hp hpk
        rw [hq] at hq'
        cases hq'
        exact hq'pos
  have hrun : uniform_idx dist operation cs st rnd w oracle =
      (s :: (if cs.eqOne then
               min_or_max M ⟨operation == "min", rv, oracle⟩
                 (dist.length - 1) 0 d0
             else
               match boolFlags dist.length cs with
               | Except.error e => ([], some e)
               | Except.ok flags =>
                   min_and_max M ⟨operation == "min", rv, oracle⟩
                     (flags.drop 1) 0 d0 d0).1,
       (if cs.eqOne then
          min_or_max M ⟨operation == "min", rv, oracle⟩
            (dist.length - 1) 0 d0
        else
          match boolFlags dist.length cs with
          | Except.error e => ([], some e)
          | Except.ok flags =>
              min_and_max M ⟨operation == "min", rv, oracle⟩
                (flags.drop 1) 0 d0 d0).2) := by
    simp only [uniform_idx, ← hMdef, hguard, if_true, hstart0, hrndeq,
      hs_eq, ← hd0def]
  obtain ⟨h1, h2, h3, h4⟩ := uniform_tail_spec M dist.length
    ⟨operation == "min", rv, oracle⟩ cs hWF hcs hPosM d0 k hk hd0len
    hd0nan hd0pos
  rw [hrun]
  refine ⟨h1, ?_, ?_, ?_⟩
  · rw [List.length_cons, h2]
    omega
  · refine List.nodup_cons.mpr ⟨?_, h3⟩
    intro hmem
    obtain ⟨p, hp1, _, hp3⟩ := h4 s hmem
    apply hp3
    have : ((p : ℤ)) = ((k : ℤ)) := by rw [← hp1, ← hks]
    exact_mod_cast this
  · intro x hx
    rcases List.mem_cons.mp hx with h | h
    · exact ⟨k, by rw [h, ← hks], hk⟩
    · obtain ⟨p, hp1, hp2, _⟩ := h4 x h
      exact ⟨p, hp1, hp2⟩

/-- C3 (amended): for every symmetric square distance matrix and every
valid parameter set — operation `min`/`max`, in-bounds start, randomness
probability in `[0,1]`, valid cluster size — the indices yielded by
`uniform_idx` are pairwise distinct PROVIDED the weight function is
strictly positive (as the library default `p ↦ 1/(p² + 1)` is) or the
cluster size equals one.  Without that proviso the claim is false: a
weight taking nonpositive values can drive every available score to
`-inf`/NaN, and `numpy.nanargmax` then returns an already-NaN (selected)
position, yielding a duplicate (see the counterexample). -/
theorem uniform_idx_yields_pairwise_distinct (dist : List (List ℚ))
    (operation : String) (cs : PyClusterSize) (st : Option ℤ)
    (rnd : Option ℚ) (w : ℚ → ℚ) (oracle : RngOracle) (n : Nat)
    (hn : dist.length = n) (hrows : ∀ row ∈ dist, row.length = n)
    (hpos : 1 ≤ n)
    (hsym : ∀ i, i < n → ∀ j, j < n →
      (dist.getD i []).getD j 0 = (dist.getD j []).getD i 0)
    (hop : operation = "min" ∨ operation = "max")
    (hst : st = none ∨ ∃ s : ℤ, st = some s ∧ 0 ≤ s ∧ s < (n : ℤ))
    (hrnd : rnd = none ∨ ∃ r : ℚ, rnd = some r ∧ 0 ≤ r ∧ r ≤ 1)
    (hcs : validCS cs)
    (hw : cs.eqOne = true ∨ ∀ x, 0 < w x) :
    (uniform_idx dist operation cs st rnd w oracle).1.Nodup :=
  (uniform_idx_run_spec dist operation cs st rnd w oracle n hn hrows hpos
    hop hst hrnd hcs hw).2.2.1

/-- Witness for the C3 amended theorem: the symmetric matrix `cexDist33`
with the default positive weight, operation `max`, cluster size 2 and
start 0 satisfies every hypothesis, and the yielded indices are pairwise
distinct. -/
theorem uniform_idx_yields_pairwise_distinct_witness :
    cexDist33.length = 3 ∧ (∀ row ∈ cexDist33, row.length = 3) ∧
    (1 : Nat) ≤ 3 ∧
    (∀ i, i < 3 → ∀ j, j < 3 →
      (cexDist33.getD i []).getD j 0 = (cexDist33.getD j []).getD i 0) ∧
    ("max" = "min" ∨ "max" = "max") ∧
    ((some (0 : ℤ) : Option ℤ) = none ∨
      ∃ s : ℤ, (some (0 : ℤ) : Option ℤ) = some s ∧ 0 ≤ s ∧ s < (3 : ℤ)) ∧
    ((none : Option ℚ) = none ∨
      ∃ r : ℚ, (none : Option ℚ) = some r ∧ 0 ≤ r ∧ r ≤ 1) ∧
    validCS (PyClusterSize.int 2) ∧
    ((PyClusterSize.int 2).eqOne = true ∨ ∀ x, 0 < wpos x) ∧
    (uniform_idx cexDist33 "max" (PyClusterSize.int 2) (some 0) none wpos
      oracle0).1.Nodup :=
  ⟨rfl, by decide, by decide, by decide, Or.inr rfl,
   Or.inr ⟨0, rfl, by decide, by decide⟩, Or.inl rfl,
   (show validCS (PyClusterSize.int 2) by simp [validCS]),
   Or.inr (fun x => by rw [wpos]; positivity),
   uniform_idx_yields_pairwise_distinct cexDist33 "max"
     (PyClusterSize.int 2) (some 0) none wpos oracle0 3 rfl (by decide)
     (by decide) (by decide) (Or.inr rfl)
     (Or.inr ⟨0, rfl, by decide, by decide⟩) (Or.inl rfl)
     (show validCS (PyClusterSize.int 2) by simp [validCS])
     (Or.inr (fun x => by rw [wpos]; positivity))⟩

theorem pyRound_intCast (m : ℤ) : pyRound (m : ℚ) = m := by
  rw [pyRound]
  norm_num [Int.floor_intCast]

theorem pyRound_le_of_le (q : ℚ) (m : ℤ) (h : q ≤ (m : ℚ)) :
    pyRound q ≤ m := by
  have hfl : ⌊q⌋ ≤ m := by
    have := Int.floor_le_floor h
    rwa [Int.floor_intCast] at this
  rw [pyRound]
  by_cases h1 : q - (⌊q⌋ : ℚ) < 1 / 2
  · rw [if_pos h1]; exact hfl
  · rw [if_neg h1]
    have hfr : (1 : ℚ) / 2 ≤ q - (⌊q⌋ : ℚ) := not_lt.mp h1
    have hfl1 : ⌊q⌋ + 1 ≤ m := by
      rcases lt_or_eq_of_le hfl with h' | h'
      · omega
      · exfalso
        have hq : ((⌊q⌋ : ℤ) : ℚ) = (m : ℚ) := by exact_mod_cast h'
        linarith
    by_cases h2 : (1 : ℚ) / 2 < q - (⌊q⌋ : ℚ)
    · rw [if_pos h2]; exact hfl1
    · rw [if_neg h2]; split <;> omega

theorem permAux_perm : ∀ (fuel : Nat) (seed : List Nat) (xs : List ℤ),
    xs.length = fuel → List.Perm (permAux fuel seed xs) xs := by
  intro fuel
  induction fuel with
  | zero =>
      intro seed xs h
      rw [List.length_eq_zero] at h
      subst h
      simp [permAux]
  | succ fuel ih =>
      intro seed xs h
      have hne : xs.isEmpty = false := by
        cases xs with
        | nil => simp at h
        | cons y ys => rfl
      rw [permAux, if_neg (by simp [hne])]
      have hklt : seed.headD 0 % xs.length < xs.length :=
        Nat.mod_lt _ (by omega)
      have hlen : (xs.eraseIdx (seed.headD 0 % xs.length)).length = fuel := by
        rw [List.length_eraseIdx]
        rw [if_pos hklt, h]
        omega
      have ih' := ih (seed.drop 1) _ hlen
      have hsplit : xs = xs.take (seed.headD 0 % xs.length) ++
          xs.getD (seed.headD 0 % xs.length) 0 ::
            xs.drop (seed.headD 0 % xs.length + 1) := by
        conv_lhs => rw [← List.take_append_drop (seed.headD 0 % xs.length) xs]
        rw [List.drop_eq_getElem_cons hklt,
          List.getD_eq_getElem xs 0 hklt]
      have herase : xs.eraseIdx (seed.headD 0 % xs.length) =
          xs.take (seed.headD 0 % xs.length) ++
            xs.drop (seed.headD 0 % xs.length + 1) :=
        List.eraseIdx_eq_take_drop_succ xs _
      refine List.Perm.trans (List.Perm.cons _ ih') ?_
      rw [herase]
      conv_rhs => rw [hsplit]
      exact List.perm_middle.symm

/-- Fancy indexing with in-bounds nonnegative positions succeeds and
returns the positionwise reads. -/
theorem pyGetEach_in_bounds {α : Type} (xs : List α) (d : α) :
    ∀ (pos : List ℤ),
    (∀ x ∈ pos, 0 ≤ x ∧ x < (xs.length : ℤ)) →
    pyGetEach xs pos = some (pos.map fun x => xs.getD x.toNat d) := by
  intro pos
  induction pos with
  | nil => intro _; rfl
  | cons p ps ih =>
      intro h
      obtain ⟨h0, h1⟩ := h p (List.mem_cons_self p ps)
      have hlt : p.toNat < xs.length := by omega
      have hget : pyGet xs p = some (xs.getD p.toNat d) := by
        rw [pyGet, pyCanon_of_nonneg _ _ h0 h1]
        rw [List.getD_eq_getElem xs d hlt]
        simp [List.get?_eq_getElem?, hlt]
      rw [pyGetEach, hget, ih (fun x hx => h x (List.mem_cons_of_mem p hx))]
      rfl

/-- C1 counterexample: for the empty candidate collection (trivially a
collection of unique integers) and `f = 1`, the `f == 1.0` short circuit
returns the empty array, whose length `0` differs from the claimed
`max(1, round(f * len(idx))) = max(1, 0) = 1`. -/
theorem distribute_idx_empty_idx_length_cex :
    distribute_idx cdistSq cdistSq coreLine (PyIdx.ndarrayInt []) 1 "uniform"
        opts0 oracle0 [] = Except.ok ⟨[], true⟩ ∧
    (max 1 (pyRound (1 * (([] : List ℤ).length : ℚ)))).toNat = 1 ∧
    ([] : List ℤ).length ≠ 1 := by
  refine ⟨?_, ?_, by decide⟩
  · exact f_one_short_circuit cdistSq cdistSq coreLine (PyIdx.ndarrayInt [])
      "uniform" opts0 oracle0 [] (by decide)
  · norm_num [pyRound]

/-- C1 (amended): for every call with a NONEMPTY collection of unique
candidate indices, `0 < f ≤ 1`, a valid mode, square distance collaborators,
in-bounds candidates, and valid `start` / `randomness` / `cluster_size`
options with the unit cluster size or a strictly positive weight, the call
succeeds and the returned array has length exactly
`max(1, round(f * len(idx)))` with pairwise-distinct entries drawn from the
candidates.  (For the empty candidate collection the claimed length `1` is
wrong: see the counterexample.) -/
theorem distribute_idx_length_and_unique
    (cdistF edge_distF : List (List ℚ) → List (List ℚ))
    (core : List (List ℚ)) (idx : PyIdx) (f : ℚ) (mode : String)
    (opts : DistOpts) (oracle : RngOracle) (permSeed : List Nat) (n : Nat)
    (hn : idx.toListInt.length = n) (hpos : 1 ≤ n)
    (hnodup : idx.toListInt.Nodup)
    (hf0 : 0 < f) (hf1 : f ≤ 1)
    (hmode : mode = "uniform" ∨ mode = "cluster" ∨ mode = "random")
    (hsq : ∀ m : List (List ℚ),
      (if opts.follow_edge then edge_distF m else cdistF m).length
        = m.length ∧
      ∀ row ∈ (if opts.follow_edge then edge_distF m else cdistF m),
        row.length = m.length)
    (hcore : ∀ x ∈ idx.toListInt, 0 ≤ x ∧ x < (core.length : ℤ))
    (hst : opts.start = none ∨
      ∃ s : ℤ, opts.start = some s ∧ 0 ≤ s ∧ s < (n : ℤ))
    (hrnd : opts.randomness = none ∨
      ∃ r : ℚ, opts.randomness = some r ∧ 0 ≤ r ∧ r ≤ 1)
    (hcs : validCS opts.cluster_size)
    (hw : opts.cluster_size.eqOne = true ∨ ∀ x, 0 < opts.weight x) :
    ∃ ret : DistResult,
      distribute_idx cdistF edge_distF core idx f mode opts oracle permSeed
        = Except.ok ret ∧
      ret.toList.length = (max 1 (pyRound (f * (n : ℚ)))).toNat ∧
      ret.toList.Nodup ∧
      ∀ x ∈ ret.toList, x ∈ idx.toListInt := by
  subst hn
  set xs := idx.toListInt with hxs
  have hmodeok : mode_set.contains mode = true := by
    rcases hmode with h | h | h <;> subst h <;> decide
  by_cases hfone : f = 1
  · subst hfone
    refine ⟨⟨xs, true⟩,
      f_one_short_circuit cdistF edge_distF core idx mode opts oracle
        permSeed (by rcases hmode with h | h | h <;> subst h <;>
          simp [mode_set]), ?_, hnodup, fun x hx => hx⟩
    have hcast : pyRound (1 * ((xs.length : Nat) : ℚ)) = (xs.length : ℤ) := by
      rw [one_mul]
      have hc : (((xs.length : ℤ)) : ℚ) = ((xs.length : Nat) : ℚ) := by
        push_cast
        ring
      rw [← hc, pyRound_intCast]
    rw [hcast, max_eq_right (by exact_mod_cast hpos)]
    show xs.length = ((xs.length : Nat) : ℤ).toNat
    omega
  · set stop := (max 1 (pyRound (f * (xs.length : ℚ)))).toNat with hstop
    have hstop1 : 1 ≤ stop := by
      have h1 := le_max_left 1 (pyRound (f * (xs.length : ℚ)))
      rw [hstop]
      omega
    have hstoplen : stop ≤ xs.length := by
      have hr : pyRound (f * (xs.length : ℚ)) ≤ (xs.length : ℤ) := by
        apply pyRound_le_of_le
        have hmul : f * (xs.length : ℚ) ≤ 1 * (xs.length : ℚ) :=
          mul_le_mul_of_nonneg_right hf1 (by positivity)
        rw [one_mul] at hmul
        exact_mod_cast hmul
      have h1n : (1 : ℤ) ≤ (xs.length : ℤ) := by exact_mod_cast hpos
      have hmax := max_le h1n hr
      rw [hstop]
      omega
    by_cases hmr : mode = "random"
    · subst hmr
      have hperm := permAux_perm xs.length permSeed xs rfl
      have hpermlen : (np_random_permutation permSeed xs).length
          = xs.length := by
        rw [np_random_permutation]
        exact hperm.length_eq
      have heq : distribute_idx cdistF edge_distF core idx f "random" opts
          oracle permSeed =
          Except.ok ⟨(np_random_permutation permSeed xs).take stop, true⟩ := by
        simp only [distribute_idx, npArrayNoCopy_fst, ← hxs]
        rw [if_neg (not_not_intro hmodeok), if_neg (not_not_intro ⟨hf0, hf1⟩),
          if_neg hfone, if_neg (by decide)]
      refine ⟨⟨(np_random_permutation permSeed xs).take stop, true⟩, heq,
        ?_, ?_, ?_⟩
      · rw [List.length_take, hpermlen]
        omega
      · exact ((List.take_sublist _ _).nodup
          (hperm.nodup_iff.mpr hnodup))
      · intro x hx
        exact hperm.mem_iff.mp (List.take_subset _ _ hx)
    · have huc : mode = "uniform" ∨ mode = "cluster" := by
        rcases hmode with h | h | h
        · exact Or.inl h
        · exact Or.inr h
        · exact absurd h hmr
      have hbranch : ((mode == "uniform" || mode == "cluster") : Bool)
          = true := by
        rcases huc with h | h <;> subst h <;> rfl
      have hfancyCore : npFancyIndex core xs =
          Except.ok (xs.map fun x => core.getD x.toNat []) := by
        rw [npFancyIndex, pyGetEach_in_bounds core [] xs hcore]
      set xyz := xs.map (fun x => core.getD x.toNat ([] : List ℚ)) with hxyz
      set dist := if opts.follow_edge then edge_distF xyz else cdistF xyz
        with hdist
      have hdlen : dist.length = xs.length := by
        rw [hdist, (hsq xyz).1, hxyz, List.length_map]
      have hdrows : ∀ row ∈ dist, row.length = xs.length := by
        intro row hrow
        have h := (hsq xyz).2 row (by rw [← hdist]; exact hrow)
        rw [hxyz, List.length_map] at h
        exact h
      set operation := if (mode == "uniform" : Bool) then "min" else "max"
        with hoper
      have hop : operation = "min" ∨ operation = "max" := by
        rcases huc with h | h <;> subst h <;> rw [hoper]
        · exact Or.inl rfl
        · exact Or.inr rfl
      obtain ⟨hrerr, hrlen, hrnodup, hrmem⟩ := uniform_idx_run_spec dist
        operation opts.cluster_size opts.start opts.randomness opts.weight
        oracle xs.length hdlen hdrows hpos hop hst hrnd hcs hw
      set run := uniform_idx dist operation opts.cluster_size opts.start
        opts.randomness opts.weight oracle with hrunset
      have hstoprun : stop ≤ run.1.length := by rw [hrlen]; exact hstoplen
      have htakeb : ∀ x ∈ run.1.take stop, 0 ≤ x ∧ x < (xs.length : ℤ) := by
        intro x hx
        obtain ⟨p, hp1, hp2⟩ := hrmem x (List.take_subset _ _ hx)
        subst hp1
        exact ⟨Int.natCast_nonneg p, by exact_mod_cast hp2⟩
      have hfancyIdx : npFancyIndex xs (run.1.take stop) =
          Except.ok ((run.1.take stop).map fun x => xs.getD x.toNat 0) := by
        rw [npFancyIndex, pyGetEach_in_bounds xs 0 _ htakeb]
      have hmaplen : ((run.1.take stop).map fun x => xs.getD x.toNat 0).length
          = stop := by
        rw [List.length_map, List.length_take, hrlen]
        omega
      have heq : distribute_idx cdistF edge_distF core idx f mode opts
          oracle permSeed =
          Except.ok ⟨(run.1.take stop).map fun x => xs.getD x.toNat 0,
            true⟩ := by
        simp only [distribute_idx, npArrayNoCopy_fst, ← hxs]
        rw [if_neg (not_not_intro hmodeok), if_neg (not_not_intro ⟨hf0, hf1⟩),
          if_neg hfone, if_pos hbranch]
        simp only [hfancyCore, ← hxyz, ← hdist, ← hoper, ← hrunset, ← hstop]
        rw [if_pos hstoprun]
        simp only [hfancyIdx]
        rw [List.take_of_length_le (le_of_eq hmaplen)]
      refine ⟨⟨(run.1.take stop).map fun x => xs.getD x.toNat 0, true⟩, heq,
        hmaplen, ?_, ?_⟩
      · apply List.Nodup.map_on
        · intro x hx y hy hxy
          obtain ⟨p, hp1, hp2⟩ := hrmem x (List.take_subset _ _ hx)
          obtain ⟨q, hq1, hq2⟩ := hrmem y (List.take_subset _ _ hy)
          subst hp1
          subst hq1
          simp only [Int.toNat_natCast] at hxy
          rw [List.getD_eq_getElem xs 0 hp2,
            List.getD_eq_getElem xs 0 hq2] at hxy
          have hpq : p = q := (List.Nodup.getElem_inj_iff hnodup).mp hxy
          exact congrArg _ hpq
        · exact (List.take_sublist _ _).nodup hrnodup
      · intro x hx
        obtain ⟨y, hy, hyx⟩ := List.mem_map.mp hx
        obtain ⟨p, hp1, hp2⟩ := hrmem y (List.take_subset _ _ hy)
        subst hp1
        rw [← hyx]
        simp only [Int.toNat_natCast]
        rw [List.getD_eq_getElem xs 0 hp2]
        exact List.getElem_mem hp2

/-- The squared-distance stand-in always returns a square matrix. -/
theorem cdistSq_square (m : List (List ℚ)) :
    (cdistSq m).length = m.length ∧
    ∀ row ∈ cdistSq m, row.length = m.length := by
  constructor
  · simp [cdistSq]
  · intro row hrow
    simp only [cdistSq] at hrow
    obtain ⟨p, _, hpr⟩ := List.mem_map.mp hrow
    rw [← hpr, List.length_map]

/-- Witness for the C1 amended theorem: four distinct candidates over the
five-point line with `f = 1/2`, mode `uniform` and the default options
satisfy every hypothesis. -/
theorem distribute_idx_length_and_unique_witness :
    (PyIdx.ndarrayInt [0, 1, 2, 3]).toListInt.length = 4 ∧
    (1 : Nat) ≤ 4 ∧
    (PyIdx.ndarrayInt [0, 1, 2, 3]).toListInt.Nodup ∧
    (0 : ℚ) < 1 / 2 ∧ (1 : ℚ) / 2 ≤ 1 ∧
    ("uniform" = "uniform" ∨ "uniform" = "cluster" ∨
      "uniform" = "random") ∧
    (∀ m : List (List ℚ),
      (if opts0.follow_edge then cdistSq m else cdistSq m).length
        = m.length ∧
      ∀ row ∈ (if opts0.follow_edge then cdistSq m else cdistSq m),
        row.length = m.length) ∧
    (∀ x ∈ (PyIdx.ndarrayInt [0, 1, 2, 3]).toListInt,
      0 ≤ x ∧ x < (coreLine.length : ℤ)) ∧
    (opts0.start = none ∨
      ∃ s : ℤ, opts0.start = some s ∧ 0 ≤ s ∧ s < (4 : ℤ)) ∧
    (opts0.randomness = none ∨
      ∃ r : ℚ, opts0.randomness = some r ∧ 0 ≤ r ∧ r ≤ 1) ∧
    validCS opts0.cluster_size ∧
    (opts0.cluster_size.eqOne = true ∨ ∀ x, 0 < opts0.weight x) ∧
    (∃ ret : DistResult,
      distribute_idx cdistSq cdistSq coreLine (PyIdx.ndarrayInt [0, 1, 2, 3])
          (1 / 2) "uniform" opts0 oracle0 [] = Except.ok ret ∧
      ret.toList.length = (max 1 (pyRound ((1 : ℚ) / 2 * (4 : ℚ)))).toNat ∧
      ret.toList.Nodup ∧
      ∀ x ∈ ret.toList, x ∈ (PyIdx.ndarrayInt [0, 1, 2, 3]).toListInt) :=
  ⟨rfl, by decide, by decide, by norm_num, by norm_num, Or.inl rfl,
   fun m => by
     rw [show (if opts0.follow_edge then cdistSq m else cdistSq m)
         = cdistSq m from rfl]
     exact cdistSq_square m,
   by decide, Or.inl rfl, Or.inl rfl,
   (by norm_num [validCS, opts0] : validCS opts0.cluster_size),
   Or.inl rfl,
   distribute_idx_length_and_unique cdistSq cdistSq coreLine
     (PyIdx.ndarrayInt [0, 1, 2, 3]) (1 / 2) "uniform" opts0 oracle0 [] 4
     rfl (by decide) (by decide) (by norm_num) (by norm_num) (Or.inl rfl)
     (fun m => by
       rw [show (if opts0.follow_edge then cdistSq m else cdistSq m)
           = cdistSq m from rfl]
       exact cdistSq_square m)
     (by decide) (Or.inl rfl) (Or.inl rfl)
     (by norm_num [validCS, opts0] : validCS opts0.cluster_size)
     (Or.inl rfl)⟩

theorem uniform_guard (operation : String)
    (hop : operation = "min" ∨ operation = "max") :
    ((operation == "min" || operation == "max") : Bool) = true := by
  rcases hop with h | h <;> simp [h]

theorem rnd_parse_ok (rnd : Option ℚ)
    (hrnd : rnd = none ∨ ∃ r : ℚ, rnd = some r ∧ 0 ≤ r ∧ r ≤ 1) :
    ∃ rv : Option ℚ,
      (match rnd with
       | none => Except.ok (none : Option ℚ)
       | some r =>
           if 0 ≤ r ∧ r ≤ 1 then Except.ok (some r)
           else Except.error PyErr.invalidRandomness) = Except.ok rv := by
  rcases hrnd with h | ⟨r, hr, h0, h1⟩
  · exact ⟨none, by rw [h]⟩
  · exact ⟨some r, by rw [hr]; exact if_pos ⟨h0, h1⟩⟩

/-- The zero cluster size escapes the generator only lazily: the start
index is yielded first, the slice-step `ValueError` second. -/
theorem uniform_zero_cluster_trace (dist : List (List ℚ))
    (operation : String) (rnd : Option ℚ) (w : ℚ → ℚ) (oracle : RngOracle)
    (s : ℤ) (k : Nat)
    (hop : operation = "min" ∨ operation = "max")
    (hk : pyCanon dist.length s = some k)
    (hrnd : rnd = none ∨ ∃ r : ℚ, rnd = some r ∧ 0 ≤ r ∧ r ≤ 1) :
    uniform_idx dist operation (PyClusterSize.int 0) (some s) rnd w oracle
      = ([s], some PyErr.zeroClusterSize) := by
  obtain ⟨rv, hrndeq⟩ := rnd_parse_ok rnd hrnd
  simp only [uniform_idx, uniform_guard operation hop, if_true, hrndeq, hk]
  rfl

/-- A float cluster size other than `1.0` escapes the generator lazily as a
`TypeError`, again after the start index was yielded. -/
theorem uniform_float_cluster_trace (dist : List (List ℚ))
    (operation : String) (rnd : Option ℚ) (w : ℚ → ℚ) (oracle : RngOracle)
    (s : ℤ) (k : Nat) (q : ℚ) (hq : q ≠ 1)
    (hop : operation = "min" ∨ operation = "max")
    (hk : pyCanon dist.length s = some k)
    (hrnd : rnd = none ∨ ∃ r : ℚ, rnd = some r ∧ 0 ≤ r ∧ r ≤ 1) :
    uniform_idx dist operation (PyClusterSize.float q) (some s) rnd w oracle
      = ([s], some PyErr.clusterTypeMismatch) := by
  obtain ⟨rv, hrndeq⟩ := rnd_parse_ok rnd hrnd
  have hone : (PyClusterSize.float q).eqOne = false := by
    simp [PyClusterSize.eqOne, hq]
  simp only [uniform_idx, uniform_guard operation hop, if_true, hrndeq, hk,
    hone, if_false]
  rfl

/-- An out-of-bounds integer start aborts the generator before any yield,
with the `ValueError` of the caught `IndexError`. -/
theorem uniform_start_oob_trace (dist : List (List ℚ)) (operation : String)
    (cs : PyClusterSize) (rnd : Option ℚ) (w : ℚ → ℚ) (oracle : RngOracle)
    (s : ℤ)
    (hop : operation = "min" ∨ operation = "max")
    (hoob : pyCanon dist.length s = none)
    (hrnd : rnd = none ∨ ∃ r : ℚ, rnd = some r ∧ 0 ≤ r ∧ r ≤ 1) :
    uniform_idx dist operation cs (some s) rnd w oracle
      = ([], some PyErr.startOutOfBounds) := by
  obtain ⟨rv, hrndeq⟩ := rnd_parse_ok rnd hrnd
  simp only [uniform_idx, uniform_guard operation hop, if_true, hrndeq, hoob]

/-- A randomness probability outside `[0, 1]` aborts the generator before
any yield. -/
theorem uniform_bad_randomness_trace (dist : List (List ℚ))
    (operation : String) (cs : PyClusterSize) (w : ℚ → ℚ)
    (oracle : RngOracle) (s : ℤ) (r : ℚ)
    (hop : operation = "min" ∨ operation = "max")
    (hr : ¬ (0 ≤ r ∧ r ≤ 1)) :
    uniform_idx dist operation cs (some s) (some r) w oracle
      = ([], some PyErr.invalidRandomness) := by
  simp only [uniform_idx, uniform_guard operation hop, if_true]
  rw [if_neg hr]

/-- At distributor level the zero-cluster `ValueError` does surface whenever
`stop ≥ 2`, because `np.fromiter` then drives the generator past its first
yield. -/
theorem distribute_zero_cluster_deferred
    (cdistF edge_distF : List (List ℚ) → List (List ℚ))
    (core : List (List ℚ)) (idx : PyIdx) (f : ℚ) (mode : String)
    (opts : DistOpts) (oracle : RngOracle) (permSeed : List Nat) (n : Nat)
    (hn : idx.toListInt.length = n)
    (hf0 : 0 < f) (hf1 : f ≤ 1) (hfone : ¬ f = 1)
    (huc : mode = "uniform" ∨ mode = "cluster")
    (hsqlen : ∀ m, (if opts.follow_edge then edge_distF m else cdistF m).length
      = m.length)
    (hcore : ∀ x ∈ idx.toListInt, 0 ≤ x ∧ x < (core.length : ℤ))
    (hcs : opts.cluster_size = PyClusterSize.int 0)
    (hst : ∃ s : ℤ, opts.start = some s ∧ 0 ≤ s ∧ s < (n : ℤ))
    (hrnd : opts.randomness = none ∨
      ∃ r : ℚ, opts.randomness = some r ∧ 0 ≤ r ∧ r ≤ 1)
    (hstop2 : 2 ≤ (max 1 (pyRound (f * (n : ℚ)))).toNat) :
    distribute_idx cdistF edge_distF core idx f mode opts oracle permSeed
      = Except.error PyErr.zeroClusterSize := by
  subst hn
  set xs := idx.toListInt with hxs
  obtain ⟨s, hsteq, hs0, hs1⟩ := hst
  have hmodeok : mode_set.contains mode = true := by
    rcases huc with h | h <;> subst h <;> decide
  have hbranch : ((mode == "uniform" || mode == "cluster") : Bool)
      = true := by
    rcases huc with h | h <;> subst h <;> rfl
  have hfancyCore : npFancyIndex core xs =
      Except.ok (xs.map fun x => core.getD x.toNat []) := by
    rw [npFancyIndex, pyGetEach_in_bounds core [] xs hcore]
  set xyz := xs.map (fun x => core.getD x.toNat ([] : List ℚ)) with hxyz
  set dist := if opts.follow_edge then edge_distF xyz else cdistF xyz
    with hdist
  have hdlen : dist.length = xs.length := by
    rw [hdist, hsqlen xyz, hxyz, List.length_map]
  set operation := if (mode == "uniform" : Bool) then "min" else "max"
    with hoper
  have hop : operation = "min" ∨ operation = "max" := by
    rcases huc with h | h <;> subst h <;> rw [hoper]
    · exact Or.inl rfl
    · exact Or.inr rfl
  have hk : pyCanon dist.length s = some s.toNat := by
    rw [hdlen]
    exact pyCanon_of_nonneg _ _ hs0 hs1
  have hrun : uniform_idx dist operation (PyClusterSize.int 0) (some s)
      opts.randomness opts.weight oracle
      = ([s], some PyErr.zeroClusterSize) :=
    uniform_zero_cluster_trace dist operation opts.randomness opts.weight
      oracle s s.toNat hop hk hrnd
  set stop := (max 1 (pyRound (f * (xs.length : ℚ)))).toNat with hstop
  simp only [distribute_idx, npArrayNoCopy_fst, ← hxs]
  rw [if_neg (not_not_intro hmodeok), if_neg (not_not_intro ⟨hf0, hf1⟩),
    if_neg hfone, if_pos hbranch]
  simp only [hfancyCore, ← hxyz, ← hdist, ← hoper, ← hstop, hsteq, hcs,
    hrun]
  rw [if_neg (by simp only [List.length_singleton]; omega)]
  rfl

/-- C7 (amended): the mode and fraction validations do raise eagerly at the
distributor (`ValueError` each); a randomness probability outside `[0, 1]`
and an out-of-bounds integer start abort the generator before any yield
(`ValueError` each); but the cluster-size validations are LAZY: a zero
integer cluster size (`ValueError`) and a non-integer non-iterable cluster
size (`TypeError`) escape only after the generator has yielded the start
index — at the distributor they surface only when `stop ≥ 2` drives the
generator past its first yield. -/
theorem distributor_error_kinds :
    (∀ (cdistF edge_distF : List (List ℚ) → List (List ℚ))
        (core : List (List ℚ)) (idx : PyIdx) (f : ℚ) (mode : String)
        (opts : DistOpts) (oracle : RngOracle) (permSeed : List Nat),
        mode_set.contains mode = false →
        distribute_idx cdistF edge_distF core idx f mode opts oracle permSeed
          = Except.error PyErr.invalidMode) ∧
    (∀ (cdistF edge_distF : List (List ℚ) → List (List ℚ))
        (core : List (List ℚ)) (idx : PyIdx) (f : ℚ) (mode : String)
        (opts : DistOpts) (oracle : RngOracle) (permSeed : List Nat),
        mode_set.contains mode = true → ¬ (0 < f ∧ f ≤ 1) →
        distribute_idx cdistF edge_distF core idx f mode opts oracle permSeed
          = Except.error PyErr.invalidFraction) ∧
    (∀ (dist : List (List ℚ)) (operation : String) (rnd : Option ℚ)
        (w : ℚ → ℚ) (oracle : RngOracle) (s : ℤ) (k : Nat),
        (operation = "min" ∨ operation = "max") →
        pyCanon dist.length s = some k →
        (rnd = none ∨ ∃ r : ℚ, rnd = some r ∧ 0 ≤ r ∧ r ≤ 1) →
        uniform_idx dist operation (PyClusterSize.int 0) (some s) rnd w
          oracle = ([s], some PyErr.zeroClusterSize)) ∧
    (∀ (cdistF edge_distF : List (List ℚ) → List (List ℚ))
        (core : List (List ℚ)) (idx : PyIdx) (f : ℚ) (mode : String)
        (opts : DistOpts) (oracle : RngOracle) (permSeed : List Nat)
        (n : Nat),
        idx.toListInt.length = n →
        0 < f → f ≤ 1 → ¬ f = 1 →
        (mode = "uniform" ∨ mode = "cluster") →
        (∀ m, (if opts.follow_edge then edge_distF m else cdistF m).length
          = m.length) →
        (∀ x ∈ idx.toListInt, 0 ≤ x ∧ x < (core.length : ℤ)) →
        opts.cluster_size = PyClusterSize.int 0 →
        (∃ s : ℤ, opts.start = some s ∧ 0 ≤ s ∧ s < (n : ℤ)) →
        (opts.randomness = none ∨
          ∃ r : ℚ, opts.randomness = some r ∧ 0 ≤ r ∧ r ≤ 1) →
        2 ≤ (max 1 (pyRound (f * (n : ℚ)))).toNat →
        distribute_idx cdistF edge_distF core idx f mode opts oracle permSeed
          = Except.error PyErr.zeroClusterSize) ∧
    (∀ (dist : List (List ℚ)) (operation : String) (rnd : Option ℚ)
        (w : ℚ → ℚ) (oracle : RngOracle) (s : ℤ) (k : Nat) (q : ℚ),
        q ≠ 1 →
        (operation = "min" ∨ operation = "max") →
        pyCanon dist.length s = some k →
        (rnd = none ∨ ∃ r : ℚ, rnd = some r ∧ 0 ≤ r ∧ r ≤ 1) →
        uniform_idx dist operation (PyClusterSize.float q) (some s) rnd w
          oracle = ([s], some PyErr.clusterTypeMismatch)) ∧
    (∀ (dist : List (List ℚ)) (operation : String) (cs : PyClusterSize)
        (rnd : Option ℚ) (w : ℚ → ℚ) (oracle : RngOracle) (s : ℤ),
        (operation = "min" ∨ operation = "max") →
        pyCanon dist.length s = none →
        (rnd = none ∨ ∃ r : ℚ, rnd = some r ∧ 0 ≤ r ∧ r ≤ 1) →
        uniform_idx dist operation cs (some s) rnd w oracle
          = ([], some PyErr.startOutOfBounds)) ∧
    (∀ (dist : List (List ℚ)) (operation : String) (cs : PyClusterSize)
        (w : ℚ → ℚ) (oracle : RngOracle) (s : ℤ) (r : ℚ),
        (operation = "min" ∨ operation = "max") →
        ¬ (0 ≤ r ∧ r ≤ 1) →
        uniform_idx dist operation cs (some s) (some r) w oracle
          = ([], some PyErr.invalidRandomness)) := by
  refine ⟨?_, ?_, ?_, ?_, ?_, ?_, ?_⟩
  · intro cdistF edge_distF core idx f mode opts oracle permSeed h
    simp only [distribute_idx]
    rw [if_pos (show ¬ (mode_set.contains mode = true) by rw [h]; simp)]
  · intro cdistF edge_distF core idx f mode opts oracle permSeed hm hf
    simp only [distribute_idx]
    rw [if_neg (not_not_intro hm), if_pos hf]
  · intro dist operation rnd w oracle s k hop hk hrnd
    exact uniform_zero_cluster_trace dist operation rnd w oracle s k hop hk
      hrnd
  · intro cdistF edge_distF core idx f mode opts oracle permSeed n hn hf0
      hf1 hfone huc hsqlen hcore hcs hst hrnd hstop2
    exact distribute_zero_cluster_deferred cdistF edge_distF core idx f mode
      opts oracle permSeed n hn hf0 hf1 hfone huc hsqlen hcore hcs hst hrnd
      hstop2
  · intro dist operation rnd w oracle s k q hq hop hk hrnd
    exact uniform_float_cluster_trace dist operation rnd w oracle s k q hq
      hop hk hrnd
  · intro dist operation cs rnd w oracle s hop hoob hrnd
    exact uniform_start_oob_trace dist operation cs rnd w oracle s hop hoob
      hrnd
  · intro dist operation cs w oracle s r hop hr
    exact uniform_bad_randomness_trace dist operation cs w oracle s r hop hr

/-- Witness for the C7 amended theorem: each error path exercised at a
concrete input. -/
theorem distributor_error_kinds_witness :
    mode_set.contains "foo" = false ∧
    (distribute_idx cdistSq cdistSq coreLine (PyIdx.ndarrayInt [0]) (1 / 2)
      "foo" opts0 oracle0 [] = Except.error PyErr.invalidMode) ∧
    ¬ ((0 : ℚ) < 2 ∧ (2 : ℚ) ≤ 1) ∧
    (distribute_idx cdistSq cdistSq coreLine (PyIdx.ndarrayInt [0]) 2
      "uniform" opts0 oracle0 [] = Except.error PyErr.invalidFraction) ∧
    pyCanon cexDist33.length 0 = some 0 ∧
    (uniform_idx cexDist33 "min" (PyClusterSize.int 0) (some 0) none wpos
      oracle0 = ([0], some PyErr.zeroClusterSize)) ∧
    2 ≤ (max 1 (pyRound ((3 : ℚ) / 4 * (4 : ℚ)))).toNat ∧
    (distribute_idx cdistSq cdistSq coreLine (PyIdx.ndarrayInt [0, 1, 2, 3])
      (3 / 4) "uniform" optsZC oracle0 []
      = Except.error PyErr.zeroClusterSize) ∧
    ((1 : ℚ) / 2 ≠ 1) ∧
    (uniform_idx cexDist33 "min" (PyClusterSize.float (1 / 2)) (some 0) none
      wpos oracle0 = ([0], some PyErr.clusterTypeMismatch)) ∧
    pyCanon cexDist33.length 5 = none ∧
    (uniform_idx cexDist33 "min" (PyClusterSize.int 1) (some 5) none wpos
      oracle0 = ([], some PyErr.startOutOfBounds)) ∧
    ¬ ((0 : ℚ) ≤ 2 ∧ (2 : ℚ) ≤ 1) ∧
    (uniform_idx cexDist33 "min" (PyClusterSize.int 1) (some 0) (some 2)
      wpos oracle0 = ([], some PyErr.invalidRandomness)) :=
  ⟨by decide,
   distributor_error_kinds.1 cdistSq cdistSq coreLine (PyIdx.ndarrayInt [0])
     (1 / 2) "foo" opts0 oracle0 [] (by decide),
   by norm_num,
   distributor_error_kinds.2.1 cdistSq cdistSq coreLine
     (PyIdx.ndarrayInt [0]) 2 "uniform" opts0 oracle0 [] (by decide)
     (by norm_num),
   by decide,
   distributor_error_kinds.2.2.1 cexDist33 "min" none wpos oracle0 0 0
     (Or.inl rfl) (by decide) (Or.inl rfl),
   by norm_num [pyRound],
   distributor_error_kinds.2.2.2.1 cdistSq cdistSq coreLine
     (PyIdx.ndarrayInt [0, 1, 2, 3]) (3 / 4) "uniform" optsZC oracle0 [] 4
     rfl (by norm_num) (by norm_num) (by norm_num) (Or.inl rfl)
     (fun m => by
       rw [show (if optsZC.follow_edge then cdistSq m else cdistSq m)
           = cdistSq m from rfl]
       exact (cdistSq_square m).1)
     (by decide) rfl ⟨0, rfl, by decide, by decide⟩ (Or.inl rfl)
     (by norm_num [pyRound]),
   by norm_num,
   distributor_error_kinds.2.2.2.2.1 cexDist33 "min" none wpos oracle0 0 0
     (1 / 2) (by norm_num) (Or.inl rfl) (by decide) (Or.inl rfl),
   by decide,
   distributor_error_kinds.2.2.2.2.2.1 cexDist33 "min" (PyClusterSize.int 1)
     none wpos oracle0 5 (Or.inl rfl) (by decide) (Or.inl rfl),
   by norm_num,
   distributor_error_kinds.2.2.2.2.2.2 cexDist33 "min" (PyClusterSize.int 1)
     wpos oracle0 0 2 (Or.inl rfl) (by norm_num)⟩

theorem pyGetEach_length {α : Type} (xs : List α) : ∀ (pos : List ℤ)
    (ys : List α), pyGetEach xs pos = some ys → ys.length = pos.length := by
  intro pos
  induction pos with
  | nil =>
      intro ys h
      simp only [pyGetEach] at h
      rw [← Option.some.inj h]
      rfl
  | cons p ps ih =>
      intro ys h
      simp only [pyGetEach] at h
      cases hg : pyGet xs p with
      | none => rw [hg] at h; simp at h
      | some v =>
          cases hgs : pyGetEach xs ps with
          | none => rw [hg, hgs] at h; simp at h
          | some vs =>
              rw [hg, hgs] at h
              rw [← Option.some.inj h, List.length_cons, List.length_cons,
                ih vs hgs]

/-- In the uniform / cluster modes with `f != 1.0`, a successful call never
returns partial output: the materialised array has exactly `stop` entries. -/
theorem distribute_uc_complete
    (cdistF edge_distF : List (List ℚ) → List (List ℚ))
    (core : List (List ℚ)) (idx : PyIdx) (f : ℚ) (mode : String)
    (opts : DistOpts) (oracle : RngOracle) (permSeed : List Nat)
    (ret : DistResult)
    (huc : mode = "uniform" ∨ mode = "cluster") (hfone : f ≠ 1)
    (h : distribute_idx cdistF edge_distF core idx f mode opts oracle
      permSeed = Except.ok ret) :
    ret.toList.length =
      (max 1 (pyRound (f * (idx.toListInt.length : ℚ)))).toNat := by
  have hbranch : ((mode == "uniform" || mode == "cluster") : Bool)
      = true := by
    rcases huc with h' | h' <;> subst h' <;> rfl
  have hmodeok : mode_set.contains mode = true := by
    rcases huc with h' | h' <;> subst h' <;> decide
  simp only [distribute_idx, npArrayNoCopy_fst] at h
  rw [if_neg (not_not_intro hmodeok)] at h
  by_cases hfv : 0 < f ∧ f ≤ 1
  · rw [if_neg (not_not_intro hfv), if_neg hfone, if_pos hbranch] at h
    split at h
    · simp at h
    · next xyz hxyz =>
        set run := uniform_idx
          (if opts.follow_edge then edge_distF xyz else cdistF xyz)
          (if (mode == "uniform" : Bool) then "min" else "max")
          opts.cluster_size opts.start opts.randomness opts.weight oracle
          with hrundef
        split at h
        · next hle =>
            split at h
            · simp at h
            · next ys hys =>
                simp only [npFancyIndex] at hys
                split at hys
                · simp at hys
                · next zs hzs =>
                    injection h with h2
                    subst h2
                    injection hys with h3
                    subst h3
                    simp only [List.length_take] at hle ⊢
                    rw [pyGetEach_length _ _ _ hzs, List.length_take]
                    omega
        · simp at h
  · rw [if_pos hfv] at h
    simp at h

/-- C8 (amended): the mode and fraction validations are eager, and an
invalid randomness or an out-of-bounds start aborts the generator before
any yield; but the cluster-size validation is LAZY — a zero cluster size
escapes only after the start index was yielded, a partial-failure state of
the generator; the distributor's `np.fromiter` materialisation restores
all-or-nothing at the caller: a successful uniform/cluster call with
`f != 1.0` returns exactly `stop = max(1, round(f * len(idx)))` indices. -/
theorem validation_laziness_and_completeness :
    (∀ (dist : List (List ℚ)) (operation : String) (cs : PyClusterSize)
        (w : ℚ → ℚ) (oracle : RngOracle) (s : ℤ) (r : ℚ),
        (operation = "min" ∨ operation = "max") → ¬ (0 ≤ r ∧ r ≤ 1) →
        (uniform_idx dist operation cs (some s) (some r) w oracle).1
          = []) ∧
    (∀ (dist : List (List ℚ)) (operation : String) (cs : PyClusterSize)
        (rnd : Option ℚ) (w : ℚ → ℚ) (oracle : RngOracle) (s : ℤ),
        (operation = "min" ∨ operation = "max") →
        pyCanon dist.length s = none →
        (rnd = none ∨ ∃ r : ℚ, rnd = some r ∧ 0 ≤ r ∧ r ≤ 1) →
        (uniform_idx dist operation cs (some s) rnd w oracle).1 = []) ∧
    (∀ (dist : List (List ℚ)) (operation : String) (rnd : Option ℚ)
        (w : ℚ → ℚ) (oracle : RngOracle) (s : ℤ) (k : Nat),
        (operation = "min" ∨ operation = "max") →
        pyCanon dist.length s = some k →
        (rnd = none ∨ ∃ r : ℚ, rnd = some r ∧ 0 ≤ r ∧ r ≤ 1) →
        (uniform_idx dist operation (PyClusterSize.int 0) (some s) rnd w
          oracle).1 = [s] ∧
        (uniform_idx dist operation (PyClusterSize.int 0) (some s) rnd w
          oracle).2 = some PyErr.zeroClusterSize ∧
        ([s] : List ℤ) ≠ []) ∧
    (∀ (cdistF edge_distF : List (List ℚ) → List (List ℚ))
        (core : List (List ℚ)) (idx : PyIdx) (f : ℚ) (mode : String)
        (opts : DistOpts) (oracle : RngOracle) (permSeed : List Nat)
        (ret : DistResult),
        (mode = "uniform" ∨ mode = "cluster") → f ≠ 1 →
        distribute_idx cdistF edge_distF core idx f mode opts oracle
          permSeed = Except.ok ret →
        ret.toList.length =
          (max 1 (pyRound (f * (idx.toListInt.length : ℚ)))).toNat) := by
  refine ⟨?_, ?_, ?_, ?_⟩
  · intro dist operation cs w oracle s r hop hr
    rw [uniform_bad_randomness_trace dist operation cs w oracle s r hop hr]
  · intro dist operation cs rnd w oracle s hop hoob hrnd
    rw [uniform_start_oob_trace dist operation cs rnd w oracle s hop hoob
      hrnd]
  · intro dist operation rnd w oracle s k hop hk hrnd
    rw [uniform_zero_cluster_trace dist operation rnd w oracle s k hop hk
      hrnd]
    exact ⟨rfl, rfl, by simp⟩
  · intro cdistF edge_distF core idx f mode opts oracle permSeed ret huc
      hfone h
    exact distribute_uc_complete cdistF edge_distF core idx f mode opts
      oracle permSeed ret huc hfone h

/-- Witness for the C8 amended theorem: each clause exercised at a
concrete input, including a complete successful one-point run. -/
theorem validation_laziness_and_completeness_witness :
    ¬ ((0 : ℚ) ≤ 5 ∧ (5 : ℚ) ≤ 1) ∧
    (uniform_idx cexDist33 "max" (PyClusterSize.int 1) (some 1) (some 5)
      wpos oracle0).1 = [] ∧
    pyCanon cexDist33.length (-7) = none ∧
    (uniform_idx cexDist33 "max" (PyClusterSize.int 1) (some (-7)) none
      wpos oracle0).1 = [] ∧
    pyCanon cexDist33.length 1 = some 1 ∧
    ((uniform_idx cexDist33 "max" (PyClusterSize.int 0) (some 1) none wpos
      oracle0).1 = [1] ∧
     (uniform_idx cexDist33 "max" (PyClusterSize.int 0) (some 1) none wpos
      oracle0).2 = some PyErr.zeroClusterSize ∧
     ([(1 : ℤ)] : List ℤ) ≠ []) ∧
    (distribute_idx cdistSq cdistSq [[0]] (PyIdx.ndarrayInt [0]) (1 / 2)
      "uniform" opts0 oracle0 [] = Except.ok ⟨[0], true⟩) ∧
    (DistResult.mk [0] true).toList.length =
      (max 1 (pyRound ((1 : ℚ) / 2 *
        ((PyIdx.ndarrayInt [0]).toListInt.length : ℚ)))).toNat := by
  have hev : distribute_idx cdistSq cdistSq [[0]] (PyIdx.ndarrayInt [0])
      (1 / 2) "uniform" opts0 oracle0 [] = Except.ok ⟨[0], true⟩ := by
    norm_num [distribute_idx, npArrayNoCopy, uniform_idx, cdistSq, pyRound,
      maskDiag, maskRows, maskRow, weightMat, FVal.mapw, wpos, nansumRow,
      nanarg, allNan, replaceNan, argExtrAux, pyCanon, pySet, rowOf,
      min_or_max, npFancyIndex, pyGetEach, pyGet, PyClusterSize.eqOne,
      opts0, FVal.toS, SVal.isnan, FVal.isnan, mode_set,
      show mode_set.contains "uniform" = true from by decide]
  refine ⟨by norm_num, ?_, by decide, ?_, by decide, ?_, hev, ?_⟩
  · exact validation_laziness_and_completeness.1 cexDist33 "max"
      (PyClusterSize.int 1) wpos oracle0 1 5 (Or.inr rfl) (by norm_num)
  · exact validation_laziness_and_completeness.2.1 cexDist33 "max"
      (PyClusterSize.int 1) none wpos oracle0 (-7) (Or.inr rfl) (by decide)
      (Or.inl rfl)
  · exact validation_laziness_and_completeness.2.2.1 cexDist33 "max" none
      wpos oracle0 1 1 (Or.inr rfl) (by decide) (Or.inl rfl)
  · exact validation_laziness_and_completeness.2.2.2 cdistSq cdistSq [[0]]
      (PyIdx.ndarrayInt [0]) (1 / 2) "uniform" opts0 oracle0 []
      ⟨[0], true⟩ (Or.inl rfl) (by norm_num) hev

theorem nextSize_pos (orig cur : List ℤ) (horig : orig ≠ [])
    (hpos : ∀ c ∈ orig, 0 < c) (hcur : ∀ c ∈ cur, 0 < c) :
    0 < (nextSize orig cur).1 ∧ ∀ c ∈ (nextSize orig cur).2, 0 < c := by
  cases cur with
  | cons c r =>
      exact ⟨hcur c (List.mem_cons_self c r),
        fun c' h' => hcur c' (List.mem_cons_of_mem c h')⟩
  | nil =>
      cases orig with
      | nil => exact absurd rfl horig
      | cons c r =>
          exact ⟨hpos c (List.mem_cons_self c r),
            fun c' h' => hpos c' (List.mem_cons_of_mem c h')⟩

theorem cycSum_ge (orig : List ℤ) (horig : orig ≠ [])
    (hpos : ∀ c ∈ orig, 0 < c) :
    ∀ (i : Nat) (cur : List ℤ), (∀ c ∈ cur, 0 < c) →
      (i : ℤ) ≤ cycSum orig cur i := by
  intro i
  induction i with
  | zero => intro cur _; simp [cycSum]
  | succ i ih =>
      intro cur hcur
      obtain ⟨h1, h2⟩ := nextSize_pos orig cur horig hpos hcur
      have h3 := ih (nextSize orig cur).2 h2
      show ((i + 1 : Nat) : ℤ) ≤
        (nextSize orig cur).1 + cycSum orig (nextSize orig cur).2 i
      push_cast
      omega

theorem specFlags_length (orig : List ℤ) :
    ∀ (m : Nat) (r : ℤ) (cur : List ℤ), (specFlags orig m r cur).length = m := by
  intro m
  induction m with
  | zero => intro r cur; rfl
  | succ m ih =>
      intro r cur
      rw [specFlags]
      by_cases h : r ≤ 0
      · rw [if_pos h, List.length_cons, ih]
      · rw [if_neg h, List.length_cons, ih]

/-- Pointwise characterisation of the countdown boundary flags: position
`j` is a boundary exactly when `j` equals the countdown start plus a
partial cycled sum of cluster sizes. -/
theorem specFlags_getD (orig : List ℤ) (horig : orig ≠ [])
    (hpos : ∀ c ∈ orig, 0 < c) :
    ∀ (m : Nat) (r : ℤ) (cur : List ℤ), 0 ≤ r → (∀ c ∈ cur, 0 < c) →
    ∀ j, j < m →
      ((specFlags orig m r cur).getD j false = true ↔
        ∃ i : Nat, (j : ℤ) = r + cycSum orig cur i) := by
  intro m
  induction m with
  | zero => intro r cur _ _ j hj; omega
  | succ m ih =>
      intro r cur hr hcur j hj
      obtain ⟨hs1, hs2⟩ := nextSize_pos orig cur horig hpos hcur
      by_cases hrem : r ≤ 0
      · have hr0 : r = 0 := le_antisymm hrem hr
        subst hr0
        rw [specFlags, if_pos (by omega : (0 : ℤ) ≤ 0)]
        cases j with
        | zero =>
            simp only [List.getD_cons_zero]
            constructor
            · intro _
              exact ⟨0, by simp [cycSum]⟩
            · intro _
              trivial
        | succ j =>
            rw [List.getD_cons_succ]
            rw [ih ((nextSize orig cur).1 - 1) (nextSize orig cur).2
              (by omega) hs2 j (by omega)]
            have hstep : ∀ i : Nat, cycSum orig cur (i + 1) =
                (nextSize orig cur).1 + cycSum orig (nextSize orig cur).2
                  i := by
              intro i
              rfl
            constructor
            · intro ⟨i, hi⟩
              refine ⟨i + 1, ?_⟩
              rw [hstep i]
              push_cast
              omega
            · intro ⟨i, hi⟩
              cases i with
              | zero =>
                  rw [show cycSum orig cur 0 = 0 from rfl] at hi
                  omega
              | succ i =>
                  rw [hstep i] at hi
                  refine ⟨i, ?_⟩
                  push_cast at hi ⊢
                  omega
      · rw [specFlags, if_neg hrem]
        cases j with
        | zero =>
            simp only [List.getD_cons_zero]
            constructor
            · intro hfalse
              cases hfalse
            · intro ⟨i, hi⟩
              cases i with
              | zero =>
                  rw [show cycSum orig cur 0 = 0 from rfl] at hi
                  omega
              | succ i =>
                  have hge := cycSum_ge orig horig hpos (i + 1) cur hcur
                  push_cast at hge
                  omega
        | succ j =>
            rw [List.getD_cons_succ]
            rw [ih (r - 1) cur (by omega) hcur j (by omega)]
            constructor
            · intro ⟨i, hi⟩
              refine ⟨i, ?_⟩
              push_cast
              omega
            · intro ⟨i, hi⟩
              refine ⟨i, ?_⟩
              push_cast at hi ⊢
              omega

/-- The source cluster loop driven by the countdown-generated boundary
flags is exactly the spec-modelled countdown loop: boundaries add the
in-progress accumulator into the completed one and reset it, growth steps
score by the elementwise ratio. -/
theorem min_and_max_eq_spec_loop (M : List (List FVal)) (ctx : ArgCtx)
    (orig : List ℤ) :
    ∀ (fuel : Nat) (t : Nat) (rem : ℤ) (cur : List ℤ) (d dc : List FVal),
      min_and_max M ctx (specFlags orig fuel rem cur) t d dc
        = cluster_spec_loop M ctx orig fuel t rem cur d dc := by
  intro fuel
  induction fuel with
  | zero => intro t rem cur d dc; rfl
  | succ fuel ih =>
      intro t rem cur d dc
      rw [specFlags]
      by_cases hrem : rem ≤ 0
      · rw [if_pos hrem]
        show min_and_max M ctx
            (true :: specFlags orig fuel ((nextSize orig cur).1 - 1)
              (nextSize orig cur).2) t d dc
          = cluster_spec_loop M ctx orig (fuel + 1) t rem cur d dc
        rw [min_and_max, cluster_spec_loop]
        rw [if_pos hrem]
        simp only [eq_self_iff_true, if_true]
        cases happ : applyArg ctx t
            ((List.zipWith FVal.add d dc).map FVal.toS) with
        | error e => rfl
        | ok j => simp only [ih]
      · rw [if_neg hrem]
        show min_and_max M ctx
            (false :: specFlags orig fuel (rem - 1) cur) t d dc
          = cluster_spec_loop M ctx orig (fuel + 1) t rem cur d dc
        rw [min_and_max, cluster_spec_loop]
        rw [if_neg hrem]
        simp only [Bool.false_eq_true, if_false]
        cases happ : applyArg ctx t (List.zipWith fdiv d dc) with
        | error e => rfl
        | ok j => simp only [ih]

theorem cycSum_nil_cur (orig : List ℤ) :
    ∀ i, cycSum orig [] i = cycSum orig orig i := by
  intro i
  cases i with
  | zero => rfl
  | succ i =>
      cases orig with
      | nil => rfl
      | cons c r => rfl

/-- Soundness of the cycled accumulating take-while: every emitted value is
a partial cycled sum strictly between the accumulator and the bound. -/
theorem cat_sound (l : List ℤ) (bound : ℤ) (hlpos : ∀ c ∈ l, 0 < c) :
    ∀ (F : Nat) (acc : ℤ) (rest : List ℤ), (∀ c ∈ rest, 0 < c) →
    ∀ x ∈ cycle_accumulate_takewhile l bound F acc rest,
      acc < x ∧ x < bound ∧ ∃ i : Nat, x = acc + cycSum l rest (i + 1) := by
  intro F
  induction F with
  | zero => intro acc rest _ x hx; cases hx
  | succ F ih =>
      intro acc rest hrest x hx
      cases rest with
      | nil =>
          rw [show cycle_accumulate_takewhile l bound (F + 1) acc [] =
              if l.isEmpty then [] else
                cycle_accumulate_takewhile l bound F acc l from rfl] at hx
          by_cases hle : l.isEmpty
          · rw [if_pos hle] at hx
            cases hx
          · rw [if_neg hle] at hx
            obtain ⟨h1, h2, i, h3⟩ := ih acc l hlpos x hx
            exact ⟨h1, h2, i, by rw [cycSum_nil_cur]; exact h3⟩
      | cons c rest' =>
          rw [show cycle_accumulate_takewhile l bound (F + 1) acc
                (c :: rest') =
              if acc + c < bound then
                (acc + c) ::
                  cycle_accumulate_takewhile l bound F (acc + c) rest'
              else [] from rfl] at hx
          have hc : 0 < c := hrest c (List.mem_cons_self c rest')
          have hrest' : ∀ y ∈ rest', 0 < y :=
            fun y hy => hrest y (List.mem_cons_of_mem c hy)
          by_cases hlt : acc + c < bound
          · rw [if_pos hlt] at hx
            rcases List.mem_cons.mp hx with hhead | htail
            · subst hhead
              refine ⟨by omega, hlt, 0, ?_⟩
              show acc + c = acc + (c + cycSum l rest' 0)
              rw [show cycSum l rest' 0 = 0 from rfl]
              ring
            · obtain ⟨h1, h2, i, h3⟩ := ih (acc + c) rest' hrest' x htail
              refine ⟨by omega, h2, i + 1, ?_⟩
              show x = acc + (c + cycSum l rest' (i + 1))
              rw [h3]
              ring
          · rw [if_neg hlt] at hx
            cases hx

/-- Completeness of the cycled accumulating take-while: with enough fuel,
every partial cycled sum below the bound is emitted. -/
theorem cat_complete (l : List ℤ) (bound : ℤ) (hl : l ≠ [])
    (hlpos : ∀ c ∈ l, 0 < c) :
    ∀ (F : Nat) (i : Nat) (acc : ℤ) (rest : List ℤ),
      (∀ c ∈ rest, 0 < c) →
      2 * (i + 1) + (if rest.isEmpty then 1 else 0) ≤ F →
      acc + cycSum l rest (i + 1) < bound →
      acc + cycSum l rest (i + 1) ∈
        cycle_accumulate_takewhile l bound F acc rest := by
  have hlemp : l.isEmpty = false := by
    cases l with
    | nil => exact absurd rfl hl
    | cons c r => rfl
  intro F
  induction F with
  | zero =>
      intro i acc rest _ hF _
      by_cases h : rest.isEmpty
      · rw [if_pos h] at hF; omega
      · rw [if_neg h] at hF; omega
  | succ F ih =>
      intro i acc rest hrest hF hlt
      cases rest with
      | nil =>
          rw [if_pos (show ([] : List ℤ).isEmpty = true from rfl)] at hF
          rw [show cycle_accumulate_takewhile l bound (F + 1) acc [] =
              if l.isEmpty then [] else
                cycle_accumulate_takewhile l bound F acc l from rfl]
          rw [if_neg (by rw [hlemp]; simp)]
          rw [cycSum_nil_cur]
          apply ih i acc l hlpos
          · rw [if_neg (by rw [hlemp]; simp)]
            omega
          · rw [← cycSum_nil_cur]
            exact hlt
      | cons c rest' =>
          rw [if_neg (by simp)] at hF
          have hc : 0 < c := hrest c (List.mem_cons_self c rest')
          have hrest' : ∀ y ∈ rest', 0 < y :=
            fun y hy => hrest y (List.mem_cons_of_mem c hy)
          have hstep : ∀ m : Nat, cycSum l (c :: rest') (m + 1)
              = c + cycSum l rest' m := fun m => rfl
          rw [show cycle_accumulate_takewhile l bound (F + 1) acc
                (c :: rest') =
              if acc + c < bound then
                (acc + c) ::
                  cycle_accumulate_takewhile l bound F (acc + c) rest'
              else [] from rfl]
          cases i with
          | zero =>
              have hlt' : acc + c < bound := by
                rw [hstep 0, show cycSum l rest' 0 = 0 from rfl] at hlt
                omega
              rw [if_pos hlt']
              rw [hstep 0, show cycSum l rest' 0 = 0 from rfl]
              rw [show acc + (c + 0) = acc + c from by ring]
              exact List.mem_cons_self _ _
          | succ i' =>
              have hge : ((i' + 1 : Nat) : ℤ) ≤ cycSum l rest' (i' + 1) :=
                cycSum_ge l hl hlpos (i' + 1) rest' hrest'
              have hlt2 : acc + c < bound := by
                rw [hstep (i' + 1)] at hlt
                push_cast at hge
                omega
              rw [if_pos hlt2]
              refine List.mem_cons_of_mem _ ?_
              have hmem := ih i' (acc + c) rest' hrest'
                (by
                  by_cases h : rest'.isEmpty
                  · rw [if_pos h]; omega
                  · rw [if_neg h]; omega)
                (by rw [hstep (i' + 1)] at hlt; omega)
              rw [hstep (i' + 1), ← add_assoc]
              exact hmem

/-- The parsed cluster positions are exactly the partial cycled sums of
cluster sizes below the array size. -/
theorem parse_mem_iff (n : Nat) (l : List ℤ) (hl : l ≠ [])
    (hlpos : ∀ c ∈ l, 0 < c) (x : ℤ) :
    x ∈ parse_cluster_size n l ↔
      (x < (n : ℤ) ∧ ∃ i : Nat, x = cycSum l l (i + 1)) := by
  constructor
  · intro hx
    rw [parse_cluster_size] at hx
    obtain ⟨h1, h2, i, h3⟩ :=
      cat_sound l (n : ℤ) hlpos _ 0 l hlpos x hx
    rw [zero_add] at h3
    exact ⟨h2, i, h3⟩
  · intro ⟨hlt, i, hx⟩
    subst hx
    have hge : ((i + 1 : Nat) : ℤ) ≤ cycSum l l (i + 1) :=
      cycSum_ge l hl hlpos (i + 1) l hlpos
    have hin : i + 1 < n := by
      push_cast at hge
      omega
    rw [parse_cluster_size]
    have hF : 2 * (i + 1) + (if l.isEmpty then 1 else 0)
        ≤ 2 * n + 2 * l.length + 2 := by
      rw [if_neg (by
        cases l with
        | nil => exact absurd rfl hl
        | cons c r => simp)]
      omega
    have h := cat_complete l (n : ℤ) hl hlpos
      (2 * n + 2 * l.length + 2) i 0 l hlpos hF (by rw [zero_add]; exact hlt)
    rw [zero_add] at h
    exact h

/-- Pointwise characterisation of the source boundary flags built from an
iterable cluster size: position `j` is flagged exactly when `j` is a
partial cycled sum of the sizes. -/
theorem flagsIter_getD (n : Nat) (l : List ℤ) (hl : l ≠ [])
    (hlpos : ∀ c ∈ l, 0 < c) (j : Nat) (hj : j < n) :
    ((flagsIter n l).getD j false = true ↔
      ∃ i : Nat, (j : ℤ) = cycSum l l (i + 1)) := by
  have hred : flagsIter n l = (List.range n).map
      (fun i => ((parse_cluster_size n l).filterMap (pyCanon n)).contains
        i) := rfl
  rw [hred, map_getD_lt _ (List.range n) j (by simpa using hj) false 0,
    List.getD_eq_getElem _ _ (by simpa using hj), List.getElem_range]
  have hmemiff : ((parse_cluster_size n l).filterMap (pyCanon n)).contains j
      = true ↔ j ∈ (parse_cluster_size n l).filterMap (pyCanon n) := by
    simp [List.elem_iff]
  rw [hmemiff, List.mem_filterMap]
  constructor
  · intro ⟨x, hx, hcx⟩
    obtain ⟨hxlt, i, hxi⟩ := (parse_mem_iff n l hl hlpos x).mp hx
    have hge : ((i + 1 : Nat) : ℤ) ≤ cycSum l l (i + 1) :=
      cycSum_ge l hl hlpos (i + 1) l hlpos
    have hx0 : 0 ≤ x := by
      rw [hxi]
      push_cast at hge
      omega
    rw [pyCanon_of_nonneg n x hx0 hxlt] at hcx
    refine ⟨i, ?_⟩
    have hjx : (j : ℤ) = x := by
      rw [← Option.some.inj hcx]
      omega
    rw [hjx, hxi]
  · intro ⟨i, hji⟩
    refine ⟨(j : ℤ), ?_, pyCanon_natCast n j hj⟩
    exact (parse_mem_iff n l hl hlpos (j : ℤ)).mpr
      ⟨by exact_mod_cast hj, i, hji⟩

theorem cycSum_single (k : ℤ) : ∀ i : Nat, cycSum [k] [] i = k * i := by
  intro i
  induction i with
  | zero => simp [cycSum]
  | succ i ih =>
      show (nextSize [k] []).1 + cycSum [k] (nextSize [k] []).2 i
        = k * ((i + 1 : Nat) : ℤ)
      rw [show nextSize [k] [] = (k, []) from rfl]
      show k + cycSum [k] [] i = k * ((i + 1 : Nat) : ℤ)
      rw [ih]
      push_cast
      ring

/-- The slice-assigned boundary flags of a fixed positive integer cluster
size, after the source's leading drop, coincide with the countdown flags
of the one-element cycling sequence `[k]` started at `k - 1`. -/
theorem sliceDrop_eq_specFlags (k : ℤ) (hk : 0 < k) (n : Nat)
    (hn : 1 ≤ n) :
    (sliceStepFlags n k).drop 1 = specFlags [k] (n - 1) (k - 1) [] := by
  obtain ⟨m, rfl⟩ : ∃ m, n = m + 1 := ⟨n - 1, by omega⟩
  have hchar := specFlags_getD [k] (by simp)
    (by intro c hc; rw [List.mem_singleton] at hc; omega) m (k - 1) []
    (by omega) (by intro c hc; cases hc)
  apply List.ext_getElem
  · rw [List.length_drop, sliceStepFlags_length, specFlags_length]
  · intro j h1 h2
    simp only [Nat.add_sub_cancel] at h2 ⊢
    have hj : j < m := by
      rw [specFlags_length] at h2
      omega
    have h1j : 1 + j < (sliceStepFlags (m + 1) k).length := by
      rw [sliceStepFlags_length]
      omega
    have hL : ((sliceStepFlags (m + 1) k).drop 1)[j] =
        decide (((j + 1 : Nat) : ℤ) % k = 0) := by
      rw [List.getElem_drop]
      rw [← List.getD_eq_getElem (sliceStepFlags (m + 1) k) false h1j]
      rw [show sliceStepFlags (m + 1) k = (List.range (m + 1)).map
          (fun (i : Nat) => if 0 < k then decide ((i : ℤ) % k = 0)
            else decide (((((m + 1 : Nat) : ℤ)) - 1 - (i : ℤ)) % (-k) = 0))
          from rfl]
      rw [map_getD_lt _ (List.range (m + 1)) (1 + j)
        (by simp; omega) false 0]
      rw [List.getD_eq_getElem _ _ (by simp; omega), List.getElem_range]
      rw [if_pos hk, show 1 + j = j + 1 from Nat.add_comm 1 j]
    have hR : (specFlags [k] m (k - 1) [])[j] =
        (specFlags [k] m (k - 1) []).getD j false := by
      rw [List.getD_eq_getElem _ _ (by rw [specFlags_length]; exact hj)]
    rw [hL, hR]
    rcases Bool.eq_false_or_eq_true
        ((specFlags [k] m (k - 1) []).getD j false) with hb | hb
    · rw [hb]
      obtain ⟨i, hi⟩ := (hchar j hj).mp hb
      rw [cycSum_single] at hi
      have hP : ((j + 1 : Nat) : ℤ) % k = 0 := by
        have heq : ((j + 1 : Nat) : ℤ) = k * ((i : ℤ) + 1) := by
          push_cast at hi ⊢
          linarith
        rw [heq]
        exact Int.mul_emod_right k _
      exact decide_eq_true hP
    · rw [hb]
      by_cases hP : ((j + 1 : Nat) : ℤ) % k = 0
      · exfalso
        obtain ⟨d, hd⟩ := Int.dvd_of_emod_eq_zero hP
        have hd1 : 1 ≤ d := by
          have hj1 : (1 : ℤ) ≤ ((j + 1 : Nat) : ℤ) := by push_cast; omega
          nlinarith
        have hmem : ∃ i : Nat, ((j : Nat) : ℤ)
            = (k - 1) + cycSum [k] [] i := by
          refine ⟨(d - 1).toNat, ?_⟩
          rw [cycSum_single]
          have hcast : (((d - 1).toNat : Nat) : ℤ) = d - 1 :=
            Int.toNat_of_nonneg (by omega)
          rw [hcast]
          push_cast at hd ⊢
          linarith
        rw [(hchar j hj).mpr hmem] at hb
        cases hb
      · exact decide_eq_false hP

/-- The cumulative-position boundary flags of an iterable cluster size,
after the source's leading drop, coincide with the countdown flags of the
cycling sequence started at its first size minus one. -/
theorem iterDrop_eq_specFlags (l : List ℤ) (hl : l ≠ [])
    (hlpos : ∀ c ∈ l, 0 < c) (n : Nat) (hn : 1 ≤ n) :
    (flagsIter n l).drop 1 = specFlags l (n - 1) ((nextSize l []).1 - 1)
      (nextSize l []).2 := by
  obtain ⟨c₀, rest, rfl⟩ : ∃ c₀ rest, l = c₀ :: rest := by
    cases l with
    | nil => exact absurd rfl hl
    | cons a b => exact ⟨a, b, rfl⟩
  obtain ⟨m, rfl⟩ : ∃ m, n = m + 1 := ⟨n - 1, by omega⟩
  have hc₀ : 0 < c₀ := hlpos c₀ (List.mem_cons_self c₀ rest)
  have hrestpos : ∀ c ∈ rest, 0 < c :=
    fun c hc => hlpos c (List.mem_cons_of_mem c₀ hc)
  have hnext : nextSize (c₀ :: rest) [] = (c₀, rest) := rfl
  rw [hnext]
  have hchar := specFlags_getD (c₀ :: rest) hl hlpos m (c₀ - 1) rest
    (by omega) hrestpos
  have hstep : ∀ i : Nat, cycSum (c₀ :: rest) (c₀ :: rest) (i + 1)
      = c₀ + cycSum (c₀ :: rest) rest i := fun i => rfl
  apply List.ext_getElem
  · rw [List.length_drop, flagsIter_length, specFlags_length]
  · intro j h1 h2
    simp only [Nat.add_sub_cancel] at h2 ⊢
    have hj : j < m := by
      rw [specFlags_length] at h2
      omega
    have hL : ((flagsIter (m + 1) (c₀ :: rest)).drop 1)[j] =
        (flagsIter (m + 1) (c₀ :: rest)).getD (1 + j) false := by
      rw [List.getElem_drop]
      rw [List.getD_eq_getElem _ _
        (by rw [flagsIter_length]; omega)]
    have hR : (specFlags (c₀ :: rest) m (c₀ - 1) rest)[j] =
        (specFlags (c₀ :: rest) m (c₀ - 1) rest).getD j false := by
      rw [List.getD_eq_getElem _ _ (by rw [specFlags_length]; exact hj)]
    rw [hL, hR]
    have hiter := flagsIter_getD (m + 1) (c₀ :: rest) hl hlpos (1 + j)
      (by omega)
    have hbridge : (∃ i : Nat, ((1 + j : Nat) : ℤ)
        = cycSum (c₀ :: rest) (c₀ :: rest) (i + 1)) ↔
        (∃ i : Nat, ((j : Nat) : ℤ)
          = (c₀ - 1) + cycSum (c₀ :: rest) rest i) := by
      constructor
      · intro ⟨i, hi⟩
        rw [hstep i] at hi
        refine ⟨i, ?_⟩
        push_cast at hi ⊢
        omega
      · intro ⟨i, hi⟩
        refine ⟨i, ?_⟩
        rw [hstep i]
        push_cast at hi ⊢
        omega
    rcases Bool.eq_false_or_eq_true
        ((specFlags (c₀ :: rest) m (c₀ - 1) rest).getD j false) with hb | hb
    · rw [hb]
      exact hiter.mpr (hbridge.mpr ((hchar j hj).mp hb))
    · rw [hb]
      rcases Bool.eq_false_or_eq_true
          ((flagsIter (m + 1) (c₀ :: rest)).getD (1 + j) false) with
        hb2 | hb2
      · exfalso
        have hmem := hbridge.mp (hiter.mp hb2)
        rw [(hchar j hj).mpr hmem] at hb
        cases hb
      · exact hb2

/-- C4: for `cluster_size != 1` the source cluster loop refines the spec's
cycling description.  With the boundary flags the source builds — slice
assignment for a fixed positive integer `k`, cumulative cycled positions
for an iterable (restarting when exhausted) — and the source's leading
`bool_ar[1:]` drop, `_min_and_max` is EQUAL to the spec-modelled countdown
loop `cluster_spec_loop`, which takes each cluster size from the cycling
sequence, counts it down, and at each boundary adds the in-progress
accumulator `dist_cluster` into the completed accumulator, resets it to
zero, and scores by the completed accumulator, while growth steps score by
the elementwise ratio of the two accumulators. -/
theorem cluster_size_cycling_refines :
    (∀ (M : List (List FVal)) (ctx : ArgCtx) (k : ℤ), 0 < k →
      ∀ (n : Nat), 1 ≤ n → ∀ (t : Nat) (d dc : List FVal),
        min_and_max M ctx ((sliceStepFlags n k).drop 1) t d dc
          = cluster_spec_loop M ctx [k] (n - 1) t (k - 1) [] d dc) ∧
    (∀ (M : List (List FVal)) (ctx : ArgCtx) (l : List ℤ), l ≠ [] →
      (∀ c ∈ l, 0 < c) → ∀ (n : Nat), 1 ≤ n →
      ∀ (t : Nat) (d dc : List FVal),
        min_and_max M ctx ((flagsIter n l).drop 1) t d dc
          = cluster_spec_loop M ctx l (n - 1) t ((nextSize l []).1 - 1)
              (nextSize l []).2 d dc) := by
  constructor
  · intro M ctx k hk n hn t d dc
    rw [sliceDrop_eq_specFlags k hk n hn, min_and_max_eq_spec_loop]
  · intro M ctx l hl hlpos n hn t d dc
    rw [iterDrop_eq_specFlags l hl hlpos n hn, min_and_max_eq_spec_loop]

/-- Witness for the C4 theorem: both the integer and the iterable cluster
sizes at concrete inputs. -/
theorem cluster_size_cycling_refines_witness :
    (0 : ℤ) < 2 ∧ (1 : Nat) ≤ 3 ∧
    (min_and_max [[FVal.val 0]] ⟨true, none, oracle0⟩
        ((sliceStepFlags 3 2).drop 1) 0 [FVal.val 1] [FVal.val 1]
      = cluster_spec_loop [[FVal.val 0]] ⟨true, none, oracle0⟩ [2] (3 - 1) 0
          (2 - 1) [] [FVal.val 1] [FVal.val 1]) ∧
    ([1, 2] : List ℤ) ≠ [] ∧ (∀ c ∈ ([1, 2] : List ℤ), 0 < c) ∧
    (min_and_max [[FVal.val 0]] ⟨true, none, oracle0⟩
        ((flagsIter 3 [1, 2]).drop 1) 0 [FVal.val 1] [FVal.val 1]
      = cluster_spec_loop [[FVal.val 0]] ⟨true, none, oracle0⟩ [1, 2] (3 - 1)
          0 ((nextSize [1, 2] []).1 - 1) (nextSize [1, 2] []).2
          [FVal.val 1] [FVal.val 1]) :=
  ⟨by decide, by decide,
   cluster_size_cycling_refines.1 [[FVal.val 0]] ⟨true, none, oracle0⟩ 2
     (by decide) 3 (by decide) 0 [FVal.val 1] [FVal.val 1],
   by decide, by decide,
   cluster_size_cycling_refines.2 [[FVal.val 0]] ⟨true, none, oracle0⟩
     [1, 2] (by decide) (by decide) 3 (by decide) 0 [FVal.val 1]
     [FVal.val 1]⟩

end CATDist
